import Mathlib

/-!
# Verification of the HA repository's P2P overlay

A shallow embedding, in Lean 4, of the components of the HA repository that
the specification's checkable claims touch:

* the DHT router and geohash-sharded storage
  (HAMapp/custom_components/ham_network/sharding.py),
* the geohash codec (same file),
* the bencode codec (custom_components/haimish/discovery.py),
* the contribution-proof scheme and the P2P node's sharing / sync /
  mobile-bridge surface (custom_components/ham_network/p2p.py).

Python byte/character strings are modelled as `List Nat` (byte values),
Python ints as `Int` or `Nat`, Python dicts as insertion-ordered association
lists, and `time.time()` as an explicit integer parameter.  SHA-256 is
modelled as an abstract hash parameter: every property proved here holds for
an arbitrary hash function, and witnesses instantiate it with a concrete
one.  The fragments of `json.dumps` / `json.loads` used by the code are
embedded as an executable serializer and recursive-descent parser over a
JSON value type.
-/

namespace HA

/-- Python byte strings / text strings, as lists of byte values. -/
abbrev Bytes := List Nat

/-- ASCII codes for a Lean `String`, to write byte-string literals readably
(every literal in this development is ASCII, where code points and UTF-8
bytes coincide). -/
def bs (s : String) : Bytes := s.data.map Char.toNat

/-- JSON values, the fragment produced and consumed by the code under
verification (objects keep insertion order, as Python dicts do). -/
inductive JVal where
  | jnull : JVal
  | jbool : Bool → JVal
  | jnum : Int → JVal
  | jstr : Bytes → JVal
  | jarr : List JVal → JVal
  | jobj : List (Bytes × JVal) → JVal

/-- Python `dict.get(k, default)` over an insertion-ordered association list:
later assignments overwrite earlier ones, so lookup takes the last binding. -/
def assocGet (k : Bytes) (l : List (Bytes × JVal)) : Option JVal :=
  (l.reverse.find? (fun p => p.1 = k)).map Prod.snd

/-- Setting a key in an insertion-ordered association list, mirroring Python
dict assignment: replace in place if present, else append. -/
def assocSet {β : Type} (k : Bytes) (v : β) : List (Bytes × β) → List (Bytes × β)
  | [] => [(k, v)]
  | (k', v') :: t => if k' = k then (k, v) :: t else (k', v') :: assocSet k v t

/-- Lookup in an association list with `Bytes` keys (first binding; used for
maps that are never rebound, where first = last). -/
def assocFind {β : Type} (k : Bytes) (l : List (Bytes × β)) : Option β :=
  (l.find? (fun p => p.1 = k)).map Prod.snd

/-! ## DHT router (HAMapp/custom_components/ham_network/sharding.py, class DHTRouter)

`H` abstracts `int(hashlib.sha256(x.encode()).hexdigest(), 16)`: an arbitrary
function from byte strings to naturals. -/

/-- `DHTRouter.get_distance`: XOR distance between this node's hashed id and a
hashed key (sharding.py lines 126-129). -/
def getDistance (H : Bytes → Nat) (nodeId key : Bytes) : Nat :=
  Nat.xor (H nodeId) (H key)

/-- `DHTRouter.should_store` (sharding.py lines 131-144): store everything on
small swarms, else admit iff the XOR distance is below the
`2^256 * replication // max(total_nodes, 1)` threshold. -/
def shouldStore (H : Bytes → Nat) (nodeId shardKey : Bytes)
    (totalNodes replication : Nat) : Bool :=
  if totalNodes ≤ replication then
    true
  else
    getDistance H nodeId shardKey < 2 ^ 256 * replication / max totalNodes 1

/-- The sort key of `DHTRouter.get_responsible_nodes`: XOR distance from a
peer's hashed id to the hashed shard key (sharding.py lines 159-161). -/
def peerDistance (H : Bytes → Nat) (shardKey : Bytes) (p : Bytes × Bytes) : Nat :=
  Nat.xor (H p.1) (H shardKey)

/-- The ordering used on peers: ascending by `peerDistance`. -/
def peerLe (H : Bytes → Nat) (shardKey : Bytes) (a b : Bytes × Bytes) : Prop :=
  peerDistance H shardKey a ≤ peerDistance H shardKey b

instance (H : Bytes → Nat) (shardKey : Bytes) : DecidableRel (peerLe H shardKey) :=
  fun a b =>
    inferInstanceAs (Decidable (peerDistance H shardKey a ≤ peerDistance H shardKey b))

/-- `DHTRouter.get_responsible_nodes` (sharding.py lines 146-164): peers
sorted ascending by XOR distance to the shard key, truncated to
`replication`.  Python's `sorted` is a stable sort; with a stable
`insertionSort` the result coincides. -/
def getResponsibleNodes (H : Bytes → Nat) (shardKey : Bytes)
    (allPeers : List (Bytes × Bytes)) (replication : Nat) : List (Bytes × Bytes) :=
  if allPeers = [] then []
  else (allPeers.insertionSort (peerLe H shardKey)).take replication

/-! ## Sharded storage (HAMapp/custom_components/ham_network/sharding.py) -/

/-- `DataType` (sharding.py lines 42-48). -/
inductive DataType where
  | traceroute
  | peerLocation
  | infrastructure
  | cellTower
  | mobileTrace
  deriving Repr, DecidableEq

/-- The `value` string of each `DataType` member. -/
def DataType.value : DataType → Bytes
  | .traceroute => bs "traceroute"
  | .peerLocation => bs "peer"
  | .infrastructure => bs "infrastructure"
  | .cellTower => bs "cell_tower"
  | .mobileTrace => bs "mobile_trace"

/-- `ShardedData` (sharding.py lines 51-103).  Timestamps and TTLs are
integers (`time.time()` is passed in explicitly as `now` wherever the source
reads the clock). -/
structure ShardedData where
  dataId : Bytes
  dataType : DataType
  geohash : Bytes
  data : JVal
  timestamp : Int
  ttl : Int
  replicationFactor : Nat
  isPermanent : Bool
  sourcePeerId : Bytes

/-- `ShardedData.is_expired` (sharding.py lines 64-69): permanent data never
expires; otherwise expired once `now` has passed `timestamp + ttl`. -/
def ShardedData.isExpired (now : Int) (d : ShardedData) : Bool :=
  if d.isPermanent then false else decide (now > d.timestamp + d.ttl)

/-- `GEOHASH_PRECISION_REGION` (sharding.py line 37). -/
def GEOHASH_PRECISION_REGION : Nat := 3

/-- `ShardedData.shard_key` (sharding.py lines 71-76): geohash region
followed by a colon and the data type's string value. -/
def ShardedData.shardKey (d : ShardedData) : Bytes :=
  (if d.geohash = [] then bs "global" else d.geohash.take GEOHASH_PRECISION_REGION)
    ++ bs ":" ++ d.dataType.value

/-- The mutable fields of `ShardedStorage` that the verified operations
touch.  Python dicts become insertion-ordered association lists; the
`on_data_received` callback and the statistics counters are external
observers and are not part of the state the claims constrain. -/
structure Storage where
  peerId : Bytes
  myGeohash : Bytes
  localData : List (Bytes × ShardedData)
  infrastructureCache : List (Bytes × ShardedData)
  viewedShards : List Bytes
  peerAddresses : List (Bytes × Bytes)

/-- `ShardedStorage.store` (sharding.py lines 241-263): permanent or
infrastructure/cell-tower items always go to the infrastructure cache and
report success; anything else is admitted only by `DHTRouter.should_store`
over `len(peers) + 1` total nodes. -/
def Storage.store (H : Bytes → Nat) (st : Storage) (d : ShardedData) :
    Bool × Storage :=
  if d.isPermanent || d.dataType = DataType.infrastructure
      || d.dataType = DataType.cellTower then
    (true, { st with infrastructureCache := assocSet d.dataId d st.infrastructureCache })
  else
    let totalNodes := st.peerAddresses.length + 1
    if shouldStore H st.peerId d.shardKey totalNodes d.replicationFactor then
      (true, { st with localData := assocSet d.dataId d st.localData })
    else
      (false, st)

/-- `ShardedStorage.cleanup_expired` (sharding.py lines 422-432): purge the
expired entries of the transient store, returning how many were removed.
Collecting the expired ids and deleting them one by one is the same as
filtering, because `local_data` is keyed by those ids. -/
def Storage.cleanupExpired (now : Int) (st : Storage) : Nat × Storage :=
  let expired := st.localData.filter (fun p => p.2.isExpired now)
  (expired.length,
    { st with localData := st.localData.filter (fun p => !p.2.isExpired now) })

/-- The accumulation of the `for peer_id, address in responsible[:3]` loop
of `_fetch_from_network`: each reply's items are appended and the loop
breaks as soon as the accumulator is non-empty, so the outcome is the first
non-empty reply among the queried peers (a failed request contributes
nothing, like an empty reply). -/
def firstHit : List (Bytes × Bytes) → List (List ShardedData) → List ShardedData
  | [], _ => []
  | _, [] => []
  | _ :: ps, r :: rs => if r.isEmpty then firstHit ps rs else r

/-- `ShardedStorage._fetch_from_network` (sharding.py lines 371-416).
`responses` holds, per queried peer (at most 3, drawn from the router's
responsible nodes), the `items` list of its HTTP reply, already converted by
`ShardedData.from_dict`; a failed request is an empty list.  The source
accumulates and stops at the first peer whose reply makes the result
non-empty, so the outcome is the first non-empty reply.  Nothing checks the
returned items' geohash against the queried prefix. -/
def fetchFromNetwork (H : Bytes → Nat) (st : Storage) (geohashPre : Bytes)
    (dataType : Option DataType) (responses : List (List ShardedData)) :
    List ShardedData :=
  let shardKey := geohashPre ++ bs ":" ++
    (match dataType with
     | some t => t.value
     | none => bs "all")
  let responsible := getResponsibleNodes H shardKey st.peerAddresses 3
  if responsible = [] then []
  else firstHit (responsible.take 3) responses

/-- One step of the merge loop at the end of `get_by_geohash` (sharding.py
lines 362-367): append the fetched item if its id is new, then `store` it. -/
def mergeFetched (H : Bytes → Nat) (acc : List ShardedData × Storage)
    (d : ShardedData) : List ShardedData × Storage :=
  if (acc.1.map ShardedData.dataId).contains d.dataId then acc
  else (acc.1 ++ [d], (acc.2.store H d).2)

/-- `ShardedStorage.get_by_geohash` (sharding.py lines 328-369): scan the
transient store (evicting expired entries), then the infrastructure cache,
keeping entries whose geohash starts with the queried prefix and whose type
matches; mark the shard as viewed; and if fewer than 10 results and peers
are known, merge in the network fetch.  `responses` are the peers' replies
as in `fetchFromNetwork`. -/
def Storage.getByGeohash (H : Bytes → Nat) (now : Int) (st : Storage)
    (geohashPre : Bytes) (dataType : Option DataType)
    (responses : List (List ShardedData)) : List ShardedData × Storage :=
  let keep : ShardedData → Bool := fun d =>
    geohashPre.isPrefixOf d.geohash &&
      (dataType.isNone || dataType = some d.dataType)
  let live := st.localData.filter (fun p => !p.2.isExpired now)
  let localResults := (live.map Prod.snd).filter keep
  let infraResults := (st.infrastructureCache.map Prod.snd).filter
    (fun d => keep d && !(localResults.map ShardedData.dataId).contains d.dataId)
  let results := localResults ++ infraResults
  let st := { st with localData := live,
                      viewedShards :=
                        if st.viewedShards.contains geohashPre then st.viewedShards
                        else st.viewedShards ++ [geohashPre] }
  if results.length < 10 && !st.peerAddresses.isEmpty then
    (fetchFromNetwork H st geohashPre dataType responses).foldl
      (mergeFetched H) (results, st)
  else
    (results, st)

/-! ## Geohash codec (sharding.py lines 533-631)

Latitudes and longitudes are rationals.  On every input the claims touch,
the source's float arithmetic is exact (all values are dyadic rationals of
small height), so the rational model computes the same strings. -/

/-- The byte values of `BASE32 = "0123456789bcdefghjkmnpqrstuvwxyz"`
(sharding.py line 535). -/
def BASE32 : Bytes := bs "0123456789bcdefghjkmnpqrstuvwxyz"

/-- The bisection state threaded through encoding and decoding: the current
latitude and longitude ranges and whether the next bit splits longitude. -/
structure GeoState where
  latLo : ℚ
  latHi : ℚ
  lonLo : ℚ
  lonHi : ℚ
  isLon : Bool

/-- The initial ranges (sharding.py lines 540-541, 579-580). -/
def geoInit : GeoState :=
  { latLo := -90, latHi := 90, lonLo := -180, lonHi := 180, isLon := true }

/-- One bisection step of `encode_geohash` (sharding.py lines 549-567): emit
one bit (1 iff the coordinate is at or above the midpoint), shrink the
corresponding range, and alternate axes.  `(bits << 1) | bit` is
`2 * bits + bit` since the freshly shifted low bit is clear. -/
def encodeBit (lat lon : ℚ) (s : GeoState) : Nat × GeoState :=
  if s.isLon then
    let mid := (s.lonLo + s.lonHi) / 2
    if lon ≥ mid then (1, { s with lonLo := mid, isLon := false })
    else (0, { s with lonHi := mid, isLon := false })
  else
    let mid := (s.latLo + s.latHi) / 2
    if lat ≥ mid then (1, { s with latLo := mid, isLon := true })
    else (0, { s with latHi := mid, isLon := true })

/-- Five bisection steps, packing the bits into one base32 index exactly as
the source's `bits = (bits << 1) | bit` accumulator does. -/
def encodeChar (lat lon : ℚ) (s : GeoState) : Nat × GeoState :=
  let r0 := encodeBit lat lon s
  let r1 := encodeBit lat lon r0.2
  let r2 := encodeBit lat lon r1.2
  let r3 := encodeBit lat lon r2.2
  let r4 := encodeBit lat lon r3.2
  (2 * (2 * (2 * (2 * r0.1 + r1.1) + r2.1) + r3.1) + r4.1, r4.2)

/-- The base32 characters of `encode_geohash`, one per iteration of the
`while len(geohash) < precision` loop. -/
def encodeGeohashAux (lat lon : ℚ) : Nat → GeoState → Bytes
  | 0, _ => []
  | n + 1, s =>
    BASE32.getD (encodeChar lat lon s).1 0 ::
      encodeGeohashAux lat lon n (encodeChar lat lon s).2

/-- `encode_geohash(lat, lon, precision)` (sharding.py lines 538-574). -/
def encodeGeohash (lat lon : ℚ) (precision : Nat) : Bytes :=
  encodeGeohashAux lat lon precision geoInit

/-- One range-halving step of `decode_geohash` driven by a bit
(sharding.py lines 585-599). -/
def decodeBit (bit : Nat) (s : GeoState) : GeoState :=
  if s.isLon then
    let mid := (s.lonLo + s.lonHi) / 2
    if bit ≠ 0 then { s with lonLo := mid, isLon := false }
    else { s with lonHi := mid, isLon := false }
  else
    let mid := (s.latLo + s.latHi) / 2
    if bit ≠ 0 then { s with latLo := mid, isLon := true }
    else { s with latHi := mid, isLon := true }

/-- Processing one base32 index: bits from position 4 down to 0
(`for i in range(4, -1, -1): bit = (idx >> i) & 1`). -/
def decodeCharIdx (idx : Nat) (s : GeoState) : GeoState :=
  let s := decodeBit (idx / 16 % 2) s
  let s := decodeBit (idx / 8 % 2) s
  let s := decodeBit (idx / 4 % 2) s
  let s := decodeBit (idx / 2 % 2) s
  decodeBit (idx % 2) s

/-- `BASE32.index(char)`: `none` models the `ValueError` the source raises
on a character outside the alphabet. -/
def base32Index (c : Nat) : Option Nat :=
  BASE32.indexOf? c

/-- The range-narrowing loop of `decode_geohash` over the input characters. -/
def decodeGeohashAux : Bytes → GeoState → Option GeoState
  | [], s => some s
  | c :: rest, s =>
    match base32Index c with
    | none => none
    | some idx => decodeGeohashAux rest (decodeCharIdx idx s)

/-- `decode_geohash(geohash)` (sharding.py lines 577-603): the center of the
decoded cell, or `none` where the source would raise on a bad character. -/
def decodeGeohash (g : Bytes) : Option (ℚ × ℚ) :=
  (decodeGeohashAux g geoInit).map fun s =>
    ((s.latLo + s.latHi) / 2, (s.lonLo + s.lonHi) / 2)

/-- The `(dlat, dlon)` offsets of the neighbor loop (sharding.py lines
616-619), in loop order, with the `(0, 0)` center skipped by value exactly
as the source's `if dlat == 0 and dlon == 0: continue` does. -/
def neighborOffsets (latDelta lonDelta : ℚ) : List (ℚ × ℚ) :=
  ([-latDelta, 0, latDelta].flatMap fun dlat =>
    [-lonDelta, 0, lonDelta].filterMap fun dlon =>
      if dlat = 0 ∧ dlon = 0 then none else some (dlat, dlon))

/-- The body of the neighbor loop (sharding.py lines 620-629): perturb the
center, wrap longitude past ±180, clamp latitude to ±90, re-encode. -/
def neighborCell (lat lon : ℚ) (precision : Nat) (d : ℚ × ℚ) : Bytes :=
  let nlat := lat + d.1
  let nlon := lon + d.2
  let nlon := if nlon > 180 then nlon - 360 else if nlon < -180 then nlon + 360 else nlon
  let nlat := max (-90) (min 90 nlat)
  encodeGeohash nlat nlon precision

/-- `get_geohash_neighbors(geohash)` (sharding.py lines 606-631): decode the
center, compute the cell size at this precision, and re-encode the eight
perturbed points. -/
def getGeohashNeighbors (g : Bytes) : Option (List Bytes) :=
  (decodeGeohash g).map fun c =>
    let precision := g.length
    let latDelta : ℚ := 180 / 2 ^ (precision * 5 / 2)
    let lonDelta : ℚ := 360 / 2 ^ ((precision * 5 + 1) / 2)
    (neighborOffsets latDelta lonDelta).map (neighborCell c.1 c.2 precision)

/-! ## Bencode codec (custom_components/haimish/discovery.py lines 316-365)

Values are ints, byte strings, lists and dicts — the domain the round-trip
claim enumerates (a Python `str` is encoded via its UTF-8 bytes and decodes
back as `bytes`, so it is outside the round-trip domain).  Dict keys are
byte strings, as in every dict the DHT client builds. -/

/-- Decimal digits, most significant first: the recursion divides `n` by 10
until one digit is left; the fuel argument (always sufficient at `n + 1`)
only makes that recursion structural. -/
def strOfNatFuel : Nat → Nat → Bytes
  | 0, _ => []
  | fuel + 1, n => if n < 10 then [n + 48] else strOfNatFuel fuel (n / 10) ++ [n % 10 + 48]

/-- The decimal digits of a natural number, most significant first, as byte
values — `str(n).encode()` for `n ≥ 0`. -/
def strOfNat (n : Nat) : Bytes := strOfNatFuel (n + 1) n

/-- `str(n).encode()` for a Python int. -/
def strOfInt : Int → Bytes
  | .ofNat n => strOfNat n
  | .negSucc n => 45 :: strOfNat (n + 1)

/-- Is this byte an ASCII digit?  (`bytes.isdigit` on a single byte.) -/
def isDigit (c : Nat) : Bool := 48 ≤ c && c ≤ 57

/-- The value of a big-endian digit string. -/
def digitsVal (l : Bytes) : Nat :=
  l.foldl (fun a c => 10 * a + (c - 48)) 0

/-- `int(b)` on a byte slice: an optional sign followed by at least one
digit (the fragment exercised here; `none` models `ValueError`). -/
def pyInt (l : Bytes) : Option Int :=
  match l with
  | 45 :: ds => if ds ≠ [] ∧ ds.all isDigit then some (-(digitsVal ds : Int)) else none
  | 43 :: ds => if ds ≠ [] ∧ ds.all isDigit then some (digitsVal ds : Int) else none
  | ds => if ds ≠ [] ∧ ds.all isDigit then some (digitsVal ds : Int) else none

/-- Bencodable values: ints, byte strings, lists, dicts (byte-string keys,
insertion-ordered like Python dicts). -/
inductive BVal where
  | bint : Int → BVal
  | bstr : Bytes → BVal
  | blist : List BVal → BVal
  | bdict : List (Bytes × BVal) → BVal

/-- Byte-string comparison, `k1 <= k2` on Python bytes (lexicographic). -/
def bytesLe : Bytes → Bytes → Bool
  | [], _ => true
  | _ :: _, [] => false
  | a :: at', b :: bt => if a < b then true else if b < a then false else bytesLe at' bt

/-- The key order `sorted(data.items(), key=lambda x: x[0])` sorts by. -/
def keyLe (a b : Bytes × BVal) : Prop := bytesLe a.1 b.1 = true

instance : DecidableRel keyLe :=
  fun a b => inferInstanceAs (Decidable (bytesLe a.1 b.1 = true))

/-- The bencoding of a byte string: decimal length, colon, raw bytes
(discovery.py lines 320-321). -/
def encStr (s : Bytes) : Bytes := strOfNat s.length ++ 58 :: s

/-- `BitTorrentDHT._bencode_encode` (discovery.py lines 316-334): ints as
`i<dec>e`, byte strings length-prefixed, lists as `l…e`, dicts as `d…e`
with items sorted by key. -/
def bencodeEncode : BVal → Bytes
  | .bint n => 105 :: strOfInt n ++ [101]
  | .bstr s => encStr s
  | .blist xs => 108 :: (xs.attach.map (fun v => bencodeEncode v.1)).flatten ++ [101]
  | .bdict kvs =>
    100 :: (((kvs.insertionSort keyLe).attach.map
      (fun kv => encStr kv.1.1 ++ bencodeEncode kv.1.2)).flatten) ++ [101]
  decreasing_by
  · have := List.sizeOf_lt_sizeOf_of_mem v.2
    simp only [BVal.blist.sizeOf_spec]
    omega
  · have hm : kv.1 ∈ kvs := (List.mem_insertionSort keyLe).mp kv.2
    have h1 := List.sizeOf_lt_sizeOf_of_mem hm
    obtain ⟨⟨k, w⟩, hmem⟩ := kv
    simp only [Prod.mk.sizeOf_spec, BVal.bdict.sizeOf_spec] at h1 ⊢
    omega

mutual

/-- `BitTorrentDHT._bencode_decode_recursive` (discovery.py lines 340-365),
consuming a prefix of the byte string and returning the unconsumed tail.
`fuel` only forces termination; it is threaded so that every recursive call
strictly decreases it, and the top-level entry supplies more than enough.
`none` models the `ValueError`s the source raises. -/
def bencodeDecodeRec : Nat → Bytes → Option (BVal × Bytes)
  | 0, _ => none
  | fuel + 1, input =>
    match input with
    | [] => none
    | c :: rest =>
      if c = 105 then
        -- int: everything up to the first following 101 is the literal
        let ds := rest.takeWhile (fun b => b ≠ 101)
        match rest.dropWhile (fun b => b ≠ 101) with
        | 101 :: rest' => (pyInt ds).map (fun n => (.bint n, rest'))
        | _ => none
      else if c = 108 then
        (bencodeDecodeList fuel rest []).map (fun r => (.blist r.1, r.2))
      else if c = 100 then
        (bencodeDecodeDict fuel rest []).map (fun r => (.bdict r.1, r.2))
      else if isDigit c then
        -- byte string: decimal length up to the first colon, then raw bytes
        let ds := input.takeWhile (fun b => b ≠ 58)
        match input.dropWhile (fun b => b ≠ 58) with
        | 58 :: rest' =>
          (pyInt ds).map (fun n =>
            (.bstr (rest'.take n.toNat), rest'.drop n.toNat))
        | _ => none
      else none

/-- The `while data[idx:idx+1] != b"e"` element loop of the list branch. -/
def bencodeDecodeList : Nat → Bytes → List BVal → Option (List BVal × Bytes)
  | 0, _, _ => none
  | fuel + 1, input, acc =>
    match input with
    | 101 :: rest => some (acc, rest)
    | _ =>
      match bencodeDecodeRec fuel input with
      | none => none
      | some (v, rest') => bencodeDecodeList fuel rest' (acc ++ [v])

/-- The key/value loop of the dict branch; `result[key] = value` is
`assocSet`.  Decoded keys must be byte strings (bencode dict keys are
strings; a non-string key would not round-trip through a Python dict). -/
def bencodeDecodeDict : Nat → Bytes → List (Bytes × BVal) →
    Option (List (Bytes × BVal) × Bytes)
  | 0, _, _ => none
  | fuel + 1, input, acc =>
    match input with
    | 101 :: rest => some (acc, rest)
    | _ =>
      match bencodeDecodeRec fuel input with
      | some (.bstr k, rest') =>
        match bencodeDecodeRec fuel rest' with
        | none => none
        | some (v, rest'') => bencodeDecodeDict fuel rest'' (assocSet k v acc)
      | _ => none

end

/-- `BitTorrentDHT._bencode_decode` (discovery.py lines 336-338): decode
from the start; the fuel bound exceeds what any input can consume. -/
def bencodeDecode (data : Bytes) : Option BVal :=
  (bencodeDecodeRec (data.length + 1) data).map Prod.fst

/-- The canonical form a value assumes after one encode/decode trip: every
dict's items sorted by key (Python dict equality ignores this order). -/
def canonB : BVal → BVal
  | .bint n => .bint n
  | .bstr s => .bstr s
  | .blist xs => .blist (xs.attach.map (fun v => canonB v.1))
  | .bdict kvs =>
    .bdict ((kvs.attach.map (fun kv => (kv.1.1, canonB kv.1.2))).insertionSort keyLe)
  decreasing_by
  · have := List.sizeOf_lt_sizeOf_of_mem v.2
    simp only [BVal.blist.sizeOf_spec]
    omega
  · have h1 := List.sizeOf_lt_sizeOf_of_mem kv.2
    obtain ⟨⟨k, w⟩, hmem⟩ := kv
    simp only [Prod.mk.sizeOf_spec, BVal.bdict.sizeOf_spec] at h1 ⊢
    omega

mutual

/-- Python `==` on decoded bencode values: ints and byte strings by value,
lists pointwise, dicts as unordered key-to-value maps (`dict.__eq__`:
equal sizes and every key of the left dict mapped equally in the right). -/
def pyEqB : BVal → BVal → Bool
  | .bint a, .bint b => a == b
  | .bstr a, .bstr b => a == b
  | .blist a, .blist b => pyEqListB a b
  | .bdict a, .bdict b => a.length == b.length && pyEqDictB b a
  | _, _ => false
termination_by v _ => sizeOf v

/-- Pointwise list equality (`list.__eq__`). -/
def pyEqListB : List BVal → List BVal → Bool
  | [], [] => true
  | x :: xs, y :: ys => pyEqB x y && pyEqListB xs ys
  | _, _ => false
termination_by l _ => sizeOf l

/-- Each key of the second list is mapped to an equal value in the first. -/
def pyEqDictB (b : List (Bytes × BVal)) : List (Bytes × BVal) → Bool
  | [] => true
  | (k, v) :: t =>
    (match assocFind k b with
     | some w => pyEqB v w
     | none => false) && pyEqDictB b t
termination_by l => sizeOf l

end

/-- All dict key lists are duplicate-free, recursively — automatic for any
value arriving from a Python dict. -/
def nodupKeysB : BVal → Prop
  | .bint _ => True
  | .bstr _ => True
  | .blist xs => ∀ v ∈ xs, nodupKeysB v
  | .bdict kvs => (kvs.map Prod.fst).Nodup ∧ ∀ kv ∈ kvs, nodupKeysB kv.2
decreasing_by
· rename_i h
  have := List.sizeOf_lt_sizeOf_of_mem h
  simp only [BVal.blist.sizeOf_spec]
  omega
· rename_i h
  have h1 := List.sizeOf_lt_sizeOf_of_mem h
  obtain ⟨k, w⟩ := kv
  simp only [Prod.mk.sizeOf_spec, BVal.bdict.sizeOf_spec] at h1 ⊢
  omega

/-! ## JSON fragment (stdlib `json.dumps` / `json.loads` as the code uses them)

The serializer covers exactly what `ContributionProof.generate` emits
(objects, plain strings without characters needing escapes, integers), with
`json.dumps`'s default separators — a comma-space between items and a
colon-space after keys.  The parser covers the JSON fragment relevant to
the proof strings the code parses: null, booleans, integers, plain strings
(no escape sequences), arrays and objects, with whitespace skipping and a
whole-input check, `none` modelling `json.JSONDecodeError`. -/

/-- `json.dumps` on the fragment above (34 is the quote, 44/32 comma-space,
58/32 colon-space, 91/93 the brackets, 123/125 the braces). -/
def dumps : JVal → Bytes
  | .jnull => bs "null"
  | .jbool true => bs "true"
  | .jbool false => bs "false"
  | .jnum n => strOfInt n
  | .jstr s => 34 :: s ++ [34]
  | .jarr xs => 91 :: (List.intercalate [44, 32] (xs.attach.map (fun v => dumps v.1))) ++ [93]
  | .jobj kvs =>
    123 :: (List.intercalate [44, 32] (kvs.attach.map
      (fun kv => 34 :: kv.1.1 ++ [34, 58, 32] ++ dumps kv.1.2))) ++ [125]
  decreasing_by
  · have := List.sizeOf_lt_sizeOf_of_mem v.2
    simp only [JVal.jarr.sizeOf_spec]
    omega
  · have h1 := List.sizeOf_lt_sizeOf_of_mem kv.2
    obtain ⟨⟨k, w⟩, hmem⟩ := kv
    simp only [Prod.mk.sizeOf_spec, JVal.jobj.sizeOf_spec] at h1 ⊢
    omega

/-- JSON whitespace. -/
def isWs (c : Nat) : Bool := c = 32 || c = 9 || c = 10 || c = 13

/-- Skip leading whitespace. -/
def skipWs (l : Bytes) : Bytes := l.dropWhile isWs

/-- Scan a string body after its opening quote.  Backslash escapes are
outside this fragment and raw control characters are rejected, as
`json.loads` rejects them. -/
def scanStr : Bytes → Option (Bytes × Bytes)
  | [] => none
  | c :: rest =>
    if c = 34 then some ([], rest)
    else if c = 92 || c < 32 then none
    else (scanStr rest).map (fun r => (c :: r.1, r.2))

/-- Scan an unsigned JSON integer: a nonempty digit run, no redundant
leading zero (the number grammar of RFC 8259, sans fraction/exponent). -/
def scanNat (l : Bytes) : Option (Nat × Bytes) :=
  let ds := l.takeWhile isDigit
  let rest := l.dropWhile isDigit
  if ds = [] then none
  else if ds.headI = 48 ∧ ds.length > 1 then none
  else some (digitsVal ds, rest)

mutual

/-- Recursive-descent value parser, fuel-forced termination. -/
def parseJVal : Nat → Bytes → Option (JVal × Bytes)
  | 0, _ => none
  | fuel + 1, input =>
    match skipWs input with
    | [] => none
    | c :: rest =>
      if c = 110 then
        match rest with
        | 117 :: 108 :: 108 :: r => some (.jnull, r)
        | _ => none
      else if c = 116 then
        match rest with
        | 114 :: 117 :: 101 :: r => some (.jbool true, r)
        | _ => none
      else if c = 102 then
        match rest with
        | 97 :: 108 :: 115 :: 101 :: r => some (.jbool false, r)
        | _ => none
      else if c = 34 then
        (scanStr rest).map (fun r => (.jstr r.1, r.2))
      else if c = 45 then
        (scanNat rest).map (fun r => (.jnum (-(r.1 : Int)), r.2))
      else if isDigit c then
        (scanNat (c :: rest)).map (fun r => (.jnum (r.1 : Int), r.2))
      else if c = 91 then
        match skipWs rest with
        | 93 :: r => some (.jarr [], r)
        | r => parseJArrItems fuel r []
      else if c = 123 then
        match skipWs rest with
        | 125 :: r => some (.jobj [], r)
        | r => parseJObjItems fuel r []
      else none

/-- Array elements: value, then a comma to continue or a bracket to stop. -/
def parseJArrItems : Nat → Bytes → List JVal → Option (JVal × Bytes)
  | 0, _, _ => none
  | fuel + 1, input, acc =>
    match parseJVal fuel input with
    | none => none
    | some (v, rest) =>
      match skipWs rest with
      | 44 :: r => parseJArrItems fuel r (acc ++ [v])
      | 93 :: r => some (.jarr (acc ++ [v]), r)
      | _ => none

/-- Object members: quoted key, colon, value, then comma or closing brace. -/
def parseJObjItems : Nat → Bytes → List (Bytes × JVal) → Option (JVal × Bytes)
  | 0, _, _ => none
  | fuel + 1, input, acc =>
    match skipWs input with
    | 34 :: r =>
      match scanStr r with
      | none => none
      | some (k, r1) =>
        match skipWs r1 with
        | 58 :: r2 =>
          match parseJVal fuel r2 with
          | none => none
          | some (v, r3) =>
            match skipWs r3 with
            | 44 :: r4 => parseJObjItems fuel r4 (acc ++ [(k, v)])
            | 125 :: r4 => some (.jobj (acc ++ [(k, v)]), r4)
            | _ => none
        | _ => none
    | _ => none

end

/-- `json.loads`: parse one value and insist the whole input is consumed. -/
def loads (input : Bytes) : Option JVal :=
  match parseJVal (input.length + 1) input with
  | some (v, rest) => if skipWs rest = [] then some v else none
  | none => none

/-! ## Contribution proofs (custom_components/ham_network/p2p.py lines 218-275)

`Hhex` abstracts `hashlib.sha256(x).hexdigest()`: an arbitrary function from
byte strings to (hex-digit) byte strings.  The scheme involves no key of any
kind: both `generate` and `verify` apply the same public hash.
`time.time()` and `secrets.token_hex(8)` are the explicit `now` / `nonce`
parameters. -/

/-- Python exceptions that can escape the embedded code paths. -/
inductive PyExc where
  | attributeError
  | typeError
  deriving Repr, DecidableEq

/-- `ContributionProof.generate(peer_id, contribution_data)` (p2p.py lines
226-241).  The object's keys are written in the sorted order that
`json.dumps(..., sort_keys=True)` produces for them: nonce, peer_id_hash,
timestamp, traceroutes, uptime_hours. -/
def generateProofPayload (Hhex : Bytes → Bytes) (peerId : Bytes)
    (tracerouteCount uptimeSeconds : Nat) (now : Nat) (nonce : Bytes) : JVal :=
  .jobj [
    (bs "nonce", .jstr nonce),
    (bs "peer_id_hash", .jstr ((Hhex peerId).take 16)),
    (bs "timestamp", .jnum now),
    (bs "traceroutes", .jnum tracerouteCount),
    (bs "uptime_hours", .jnum (uptimeSeconds / 3600))]

/-- The generated proof: canonical serialization, a pipe (124), and the
first 32 hex characters of the unkeyed digest of that serialization. -/
def generate (Hhex : Bytes → Bytes) (peerId : Bytes)
    (tracerouteCount uptimeSeconds : Nat) (now : Nat) (nonce : Bytes) : Bytes :=
  let proofString := dumps (generateProofPayload Hhex peerId tracerouteCount uptimeSeconds now nonce)
  proofString ++ 124 :: (Hhex proofString).take 32

/-- `proof.rsplit("|", 1)`: split at the last pipe; `none` when there is no
pipe (the source's unpacking then raises `ValueError`, which `verify`
catches). -/
def rsplitPipe : Bytes → Option (Bytes × Bytes)
  | [] => none
  | c :: rest =>
    match rsplitPipe rest with
    | some (a, b) => some (c :: a, b)
    | none => if c = 124 then some ([], rest) else none

/-- `ContributionProof.verify(proof)` (p2p.py lines 243-266).  The
`try` block catches only `ValueError` and `json.JSONDecodeError`; reading
`.get` off a parsed non-dict raises `AttributeError`, and arithmetic on a
non-numeric timestamp raises `TypeError`, neither of which is caught
(Python booleans are ints, so a boolean timestamp computes).  A successful
run returns `(valid, record)`. -/
def verify (Hhex : Bytes → Bytes) (now : Int) (proof : Bytes) :
    Except PyExc (Bool × Option (List (Bytes × JVal))) :=
  match rsplitPipe proof with
  | none => .ok (false, none)
  | some (proofString, signature) =>
    if signature ≠ (Hhex proofString).take 32 then .ok (false, none)
    else
      match loads proofString with
      | none => .ok (false, none)
      | some (.jobj kvs) =>
        match (assocGet (bs "timestamp") kvs).getD (.jnum 0) with
        | .jnum ts =>
          if now - ts > 86400 then .ok (false, none) else .ok (true, some kvs)
        | .jbool b =>
          if now - (if b then 1 else 0) > 86400 then .ok (false, none)
          else .ok (true, some kvs)
        | _ => .error .typeError
      | some _ => .error .attributeError

/-- `ContributionProof.is_contributing(proof, min_traceroutes)` (p2p.py
lines 268-275).  `not data` is Python truthiness: an empty record also
fails.  Comparing a non-numeric `traceroutes` against an int raises
`TypeError`, uncaught. -/
def isContributing (Hhex : Bytes → Bytes) (now : Int) (proof : Bytes)
    (minTraceroutes : Int := 1) : Except PyExc Bool :=
  match verify Hhex now proof with
  | .error e => .error e
  | .ok (false, _) => .ok false
  | .ok (true, none) => .ok false
  | .ok (true, some kvs) =>
    if kvs.isEmpty then .ok false
    else
      match (assocGet (bs "traceroutes") kvs).getD (.jnum 0) with
      | .jnum n => .ok (decide (n ≥ minTraceroutes))
      | .jbool b => .ok (decide ((if b then (1 : Int) else 0) ≥ minTraceroutes))
      | _ => .error .typeError

def jplain (s : Bytes) : Prop := ∀ c ∈ s, 32 ≤ c ∧ c ≠ 34 ∧ c ≠ 92

def hexDigit (c : Nat) : Prop := (48 ≤ c ∧ c ≤ 57) ∨ (97 ≤ c ∧ c ≤ 102)

def hexA : Bytes → Bytes := fun _ => List.replicate 64 97

/-! ## P2P node: sharing gate, sync, mobile bridge
(custom_components/ham_network/p2p.py, class P2PNode)

The node state keeps the fields the verified handlers touch.  HTTP requests
and responses are explicit values; outbound HTTP posts made by a handler
are returned as a list of `OutMsg`.  Fresh randomness (`secrets.token_*`)
and the clock are parameters. -/

/-- `P2P_DHT_REPLICATION` (const.py): fan-out of the legacy share loop. -/
def P2P_DHT_REPLICATION : Nat := 3

/-- `P2P_PEER_TIMEOUT` (const.py): seconds without contact before a peer is
stale. -/
def P2P_PEER_TIMEOUT : Int := 600

/-- The slice of `P2PPeer` the verified paths read. -/
structure PeerRec where
  host : Bytes
  port : Nat
  lastSeen : Int
  deriving DecidableEq

/-- `P2PPeer.is_stale` (p2p.py lines 166-169). -/
def PeerRec.isStale (now : Int) (p : PeerRec) : Bool :=
  decide (now - p.lastSeen > P2P_PEER_TIMEOUT)

/-- The slice of `SharedTraceroute` the verified paths read (the remaining
enrichment fields ride along in real payloads but no claim constrains
them). -/
structure TraceRec where
  tracerouteId : Bytes
  sourcePeerId : Bytes
  targetPeerId : Option Bytes
  timestamp : Int
  isMobile : Bool
  deriving DecidableEq

/-- A mobile token record (p2p.py lines 688-694). -/
structure MobileToken where
  peerId : Bytes
  deviceName : Bytes
  created : Int
  expires : Int
  homePeerId : Bytes
  deriving DecidableEq

/-- Outbound HTTP posts a handler fires (addresses are `host:port`). -/
inductive OutMsg where
  | postTraceroute (address : Bytes) (sourcePeerId : Bytes) (targetPeerId : Bytes)
  | postBroadcast (address : Bytes) (trace : TraceRec)
  deriving DecidableEq

/-- The `P2PNode` fields the verified handlers touch. -/
structure NodeState where
  peerId : Bytes
  displayName : Bytes
  shareData : Bool
  peers : List (Bytes × PeerRec)
  sharedTraceroutes : List (Bytes × TraceRec)
  mobileTokens : List (Bytes × MobileToken)
  topologyLinks : List (Bytes × Bytes)
  statsTraceroutes : Nat
  statsHops : Nat

/-- `peer.address` (p2p.py lines 161-164). -/
def PeerRec.address (p : PeerRec) : Bytes :=
  p.host ++ bs ":" ++ strOfNat p.port

/-- `P2PNode._add_traceroute_to_topology` (p2p.py lines 1255-1277): record
the link (deduplicated on the source/target pair) and bump the counters.
Empty source or target is falsy and aborts. -/
def addTracerouteToTopology (st : NodeState) (source target : Bytes)
    (hopCount : Nat) : NodeState :=
  if source.isEmpty || target.isEmpty then st
  else
    { st with
      topologyLinks :=
        if st.topologyLinks.contains (source, target) then st.topologyLinks
        else st.topologyLinks ++ [(source, target)],
      statsTraceroutes := st.statsTraceroutes + 1,
      statsHops := st.statsHops + hopCount }

/-- `P2PNode._store_and_broadcast_traceroute` (p2p.py lines 865-911): store
the trace in the shared-trace table, then broadcast it.  (The call also
caches one enriched hop in the node's own sharded storage and pushes to
connected WebSocket clients — both local effects — which this model
elides.)  `_broadcast_to_peers` (lines 929-946) posts to every non-stale
peer, but only when sharing is enabled. -/
def storeAndBroadcastTraceroute (now : Int) (st : NodeState) (tr : TraceRec) :
    NodeState × List OutMsg :=
  let st := { st with
    sharedTraceroutes := assocSet tr.tracerouteId tr st.sharedTraceroutes }
  let out :=
    if st.peers.isEmpty || !st.shareData then []
    else (st.peers.filter (fun p => !p.2.isStale now)).map
      (fun p => OutMsg.postBroadcast p.2.address tr)
  (st, out)

/-- `P2PNode.submit_traceroute` (p2p.py lines 1435-1471): add to topology;
if sharing is enabled, build a `SharedTraceroute` and store-and-broadcast
it; then — unconditionally — post the raw result to up to
`P2P_DHT_REPLICATION` known peers over `/p2p/traceroute` (the "legacy"
share loop, which does not consult `_share_data`). -/
def submitTraceroute (now : Int) (st : NodeState) (targetPeerId : Bytes)
    (hopCount : Nat) (freshId : Bytes) : NodeState × List OutMsg :=
  let st := addTracerouteToTopology st st.peerId targetPeerId hopCount
  let (st, out) :=
    if st.shareData then
      storeAndBroadcastTraceroute now st
        { tracerouteId := freshId, sourcePeerId := st.peerId,
          targetPeerId := some targetPeerId, timestamp := now, isMobile := false }
    else (st, [])
  let legacy := (st.peers.take P2P_DHT_REPLICATION).map
    (fun p => OutMsg.postTraceroute p.2.address st.peerId targetPeerId)
  (st, out ++ legacy)

/-- `P2PNode._cleanup_old_traceroutes` (p2p.py lines 948-954). -/
def cleanupOldTraceroutes (now : Int) (st : NodeState) : NodeState :=
  { st with sharedTraceroutes :=
      st.sharedTraceroutes.filter (fun t => decide (t.2.timestamp > now - 86400)) }

/-- A full-sync response: either the gating message or the full trace
list. -/
inductive FullSyncResponse where
  | limited (tracerouteCount : Nat)
  | full (traceroutes : List TraceRec) (peerCount : Nat)
  deriving DecidableEq

/-- `P2PNode._handle_full_sync` (p2p.py lines 587-604): gate on the
requester's contribution proof (`contributing` is the caller's
`ContributionProof.is_contributing` outcome on the `X-Contribution-Proof`
header), clean up old traces, and return every shared trace.  Nothing here
consults `_share_data`. -/
def handleFullSync (contributing : Bool) (now : Int) (st : NodeState) :
    FullSyncResponse × NodeState :=
  if !contributing then
    (.limited st.sharedTraceroutes.length, st)
  else
    let st := cleanupOldTraceroutes now st
    (.full (st.sharedTraceroutes.map Prod.snd) st.peers.length, st)

/-- HTTP results of the mobile endpoints: a JSON response, an auth failure,
or an exception escaping the handler (aiohttp then answers 500). -/
inductive MobileResult where
  | ok (body : JVal)
  | unauthorized
  | serverError

/-- `P2PNode._handle_mobile_register` (p2p.py lines 670-705): parse the
JSON body (a parse failure escapes the handler), reject an absent/empty
`Authorization` header with 401, read `device_name` off the body (an
`AttributeError` escapes if the body is not an object), then mint an
opaque token — `secrets.token_urlsafe(32)` and `secrets.token_hex(8)` are
the `freshToken` / `freshPeerHex` parameters — expiring 30 days out.  The
`Authorization` value itself is never compared against anything. -/
def handleMobileRegister (now : Int) (st : NodeState) (auth : Bytes)
    (body : Option JVal) (freshToken freshPeerHex : Bytes) :
    MobileResult × NodeState :=
  match body with
  | none => (.serverError, st)
  | some data =>
    if auth.isEmpty then (.unauthorized, st)
    else
      match data with
      | .jobj kvs =>
        let deviceName :=
          match (assocGet (bs "device_name") kvs).getD (.jstr (bs "Mobile Device")) with
          | .jstr s => s
          | _ => bs "Mobile Device"
        let entry : MobileToken :=
          { peerId := bs "mobile_" ++ freshPeerHex,
            deviceName := deviceName,
            created := now,
            expires := now + 86400 * 30,
            homePeerId := st.peerId }
        (.ok (.jobj [
            (bs "token", .jstr freshToken),
            (bs "expires_in", .jnum (86400 * 30))]),
          { st with mobileTokens := assocSet freshToken entry st.mobileTokens })
      | _ => (.serverError, st)

/-- `P2PNode._handle_mobile_traceroute` (p2p.py lines 707-753): check the
token (presence, then expiry), build the trace, and — only if sharing is
enabled — store-and-broadcast; otherwise store locally only. -/
def handleMobileTraceroute (now : Int) (st : NodeState) (token : Bytes)
    (freshId : Bytes) : MobileResult × NodeState × List OutMsg :=
  match assocFind token st.mobileTokens with
  | none => (.unauthorized, st, [])
  | some tok =>
    if decide (now > tok.expires) then
      (.unauthorized,
        { st with mobileTokens := st.mobileTokens.filter (fun p => p.1 ≠ token) }, [])
    else
      let tr : TraceRec :=
        { tracerouteId := freshId, sourcePeerId := tok.peerId,
          targetPeerId := some tok.homePeerId, timestamp := now, isMobile := true }
      if st.shareData then
        let (st, out) := storeAndBroadcastTraceroute now st tr
        (.ok (.jobj [(bs "traceroute_id", .jstr freshId)]), st, out)
      else
        (.ok (.jobj [(bs "traceroute_id", .jstr freshId)]),
          { st with sharedTraceroutes := assocSet freshId tr st.sharedTraceroutes }, [])

/-! ## Auxiliary notions for the bencode proofs -/

/-- The concatenated encodings of a list's elements. -/
def encList (xs : List BVal) : Bytes := (xs.map bencodeEncode).flatten

/-- The concatenated encodings of a pair list's items. -/
def encPairs (l : List (Bytes × BVal)) : Bytes :=
  (l.map (fun kv => encStr kv.1 ++ bencodeEncode kv.2)).flatten

/-- A fuel bound for the decoder: nodes plus one per list level. -/
def szB : BVal → Nat
  | .bint _ => 1
  | .bstr _ => 1
  | .blist xs => 1 + ((xs.attach.map (fun v => szB v.1)).sum + 1)
  | .bdict kvs => 1 + ((kvs.attach.map (fun kv => 1 + szB kv.1.2)).sum + 1)
decreasing_by
· have := List.sizeOf_lt_sizeOf_of_mem v.2
  simp only [BVal.blist.sizeOf_spec]
  omega
· have h1 := List.sizeOf_lt_sizeOf_of_mem kv.2
  obtain ⟨⟨k, w⟩, hmem⟩ := kv
  simp only [Prod.mk.sizeOf_spec, BVal.bdict.sizeOf_spec] at h1 ⊢
  omega

/-- The fuel bound for a list tail. -/
def szList (xs : List BVal) : Nat := (xs.map szB).sum + 1

/-- The fuel bound for a pair-list tail. -/
def szPairs (l : List (Bytes × BVal)) : Nat :=
  (l.map (fun kv => 1 + szB kv.2)).sum + 1

/-! ## Auxiliary notions for the geohash proofs -/

/-- The state after `k` single-bit bisection steps. -/
def encStateBits (lat lon : ℚ) : Nat → GeoState → GeoState
  | 0, s => s
  | k + 1, s => encStateBits lat lon k (encodeBit lat lon s).2

/-- The state after `n` characters (five bits each). -/
def encStateChars (lat lon : ℚ) : Nat → GeoState → GeoState
  | 0, s => s
  | n + 1, s => encStateChars lat lon n (encodeChar lat lon s).2

/-- The encoded point stays inside the tracked ranges. -/
def stateInv (lat lon : ℚ) (s : GeoState) : Prop :=
  s.latLo ≤ lat ∧ lat ≤ s.latHi ∧ s.lonLo ≤ lon ∧ lon ≤ s.lonHi

/-- The tracked ranges stay nested inside the initial ones. -/
def rangesOk (s : GeoState) : Prop :=
  -90 ≤ s.latLo ∧ s.latLo ≤ s.latHi ∧ s.latHi ≤ 90 ∧
  -180 ≤ s.lonLo ∧ s.lonLo ≤ s.lonHi ∧ s.lonHi ≤ 180

/-- The latitude cell height at `precision` (sharding.py line 612). -/
def latDelta (precision : Nat) : ℚ := 180 / 2 ^ (precision * 5 / 2)

/-- The longitude cell width at `precision` (sharding.py line 613). -/
def lonDelta (precision : Nat) : ℚ := 360 / 2 ^ ((precision * 5 + 1) / 2)

/-! # Theorems -/

/-- A concrete node with sharing disabled, one live peer, and one valid
mobile token, for evaluating the handlers at explicit inputs. -/
def sampleNode : NodeState :=
  { peerId := bs "me", displayName := bs "Me", shareData := false,
    peers := [(bs "p1", { host := bs "h", port := 80, lastSeen := 0 })],
    sharedTraceroutes := [],
    mobileTokens := [(bs "tok",
      { peerId := bs "mobile_x", deviceName := bs "phone", created := 0,
        expires := 1000, homePeerId := bs "me" })],
    topologyLinks := [], statsTraceroutes := 0, statsHops := 0 }

/-- Finding the key just set. -/
theorem assocFind_assocSet {β : Type} (k : Bytes) (v : β) (l : List (Bytes × β)) :
    assocFind k (assocSet k v l) = some v := by
  induction l with
  | nil => simp [assocSet, assocFind]
  | cons p t ih =>
    obtain ⟨k', v'⟩ := p
    by_cases h : k' = k
    · simp [assocSet, assocFind, h]
    · simp only [assocSet, if_neg h]
      simpa [assocFind, h] using ih

/-- Claim C6.
For every shard key, `should_store` returns true whenever
`totalNodes ≤ replication`; and for every shard key, peer list, and
replication count, `get_responsible_nodes` returns at most `replication`
entries, sorted ascending by XOR distance between the hashed peer id and
the hashed shard key. -/
theorem shouldStore_closestNodes_spec :
    (∀ (H : Bytes → Nat) (nodeId shardKey : Bytes) (totalNodes replication : Nat),
        totalNodes ≤ replication →
        shouldStore H nodeId shardKey totalNodes replication = true) ∧
    (∀ (H : Bytes → Nat) (shardKey : Bytes) (allPeers : List (Bytes × Bytes))
        (replication : Nat),
        (getResponsibleNodes H shardKey allPeers replication).length ≤ replication ∧
        (getResponsibleNodes H shardKey allPeers replication).Sorted
          (peerLe H shardKey)) := by
  constructor
  · intro H nodeId shardKey totalNodes replication h
    simp [shouldStore, h]
  · intro H shardKey allPeers replication
    haveI : IsTotal (Bytes × Bytes) (peerLe H shardKey) :=
      ⟨fun a b => Nat.le_total _ _⟩
    haveI : IsTrans (Bytes × Bytes) (peerLe H shardKey) :=
      ⟨fun _ _ _ => Nat.le_trans⟩
    unfold getResponsibleNodes
    split
    · simp
    · constructor
      · rw [List.length_take]
        exact min_le_left _ _
      · exact (List.sorted_insertionSort (peerLe H shardKey) allPeers).sublist
          (List.take_sublist _ _)

/-- Witness for C6 at concrete inputs. -/
theorem shouldStore_closestNodes_spec_witness :
    shouldStore (fun _ => 5) (bs "node") (bs "gcp:traceroute") 2 3 = true ∧
    (getResponsibleNodes (fun l => l.length) (bs "k")
      [(bs "aa", bs "x"), (bs "b", bs "y"), (bs "ccc", bs "z")] 2).length ≤ 2 :=
  ⟨shouldStore_closestNodes_spec.1 _ _ _ 2 3 (by decide),
   (shouldStore_closestNodes_spec.2 (fun l => l.length) (bs "k") _ 2).1⟩

/-- Claim C7.
Permanent and infrastructure data is always retained locally: `store()` of
a permanent or infrastructure/cell-tower item always caches it in the
infrastructure cache and returns true regardless of the router's
`should_store` outcome; a permanent item is never reported expired at any
time; and `cleanup_expired` never removes any entry from the
infrastructure cache. -/
theorem permanent_retention_spec :
    (∀ (H : Bytes → Nat) (st : Storage) (d : ShardedData),
        d.isPermanent = true ∨ d.dataType = DataType.infrastructure ∨
          d.dataType = DataType.cellTower →
        (st.store H d).1 = true ∧
        assocFind d.dataId (st.store H d).2.infrastructureCache = some d) ∧
    (∀ (now : Int) (d : ShardedData), d.isPermanent = true →
        d.isExpired now = false) ∧
    (∀ (now : Int) (st : Storage),
        (Storage.cleanupExpired now st).2.infrastructureCache =
          st.infrastructureCache) := by
  refine ⟨?_, ?_, ?_⟩
  · intro H st d h
    have hcond : (d.isPermanent || decide (d.dataType = DataType.infrastructure)
        || decide (d.dataType = DataType.cellTower)) = true := by
      rcases h with h | h | h <;> simp [h]
    constructor
    · simp [Storage.store, hcond]
    · simp only [Storage.store, hcond, if_pos]
      simpa using assocFind_assocSet d.dataId d st.infrastructureCache
  · intro now d h
    simp [ShardedData.isExpired, h]
  · intro now st
    simp [Storage.cleanupExpired]

/-- Witness for C7 at concrete inputs. -/
theorem permanent_retention_spec_witness :
    ((Storage.store (fun _ => 0)
        { peerId := bs "me", myGeohash := [], localData := [],
          infrastructureCache := [], viewedShards := [], peerAddresses := [] }
        { dataId := bs "d1", dataType := DataType.infrastructure,
          geohash := bs "gcpvj", data := .jnull, timestamp := 0, ttl := 86400,
          replicationFactor := 5, isPermanent := true, sourcePeerId := bs "me" }).1
        = true) ∧
    ShardedData.isExpired 999999999
      { dataId := bs "d1", dataType := DataType.infrastructure,
        geohash := bs "gcpvj", data := .jnull, timestamp := 0, ttl := 86400,
        replicationFactor := 5, isPermanent := true, sourcePeerId := bs "me" }
      = false :=
  ⟨(permanent_retention_spec.1 _ _ _ (Or.inl rfl)).1,
   permanent_retention_spec.2.1 999999999 _ rfl⟩

/-- Everything `firstHit` returns came from one of the replies. -/
theorem firstHit_subset (ps : List (Bytes × Bytes))
    (rs : List (List ShardedData)) :
    ∀ d ∈ firstHit ps rs, ∃ r ∈ rs, d ∈ r := by
  induction ps generalizing rs with
  | nil => intro d hd; cases rs <;> simp [firstHit] at hd
  | cons p pt ih =>
    intro d hd
    cases rs with
    | nil => simp [firstHit] at hd
    | cons r rt =>
      by_cases h : r.isEmpty
      · rw [firstHit, if_pos h] at hd
        obtain ⟨r', hr', hd'⟩ := ih rt d hd
        exact ⟨r', List.mem_cons_of_mem r hr', hd'⟩
      · rw [firstHit, if_neg h] at hd
        exact ⟨r, List.mem_cons_self r rt, hd⟩

/-- The merge fold of `get_by_geohash` preserves a per-item predicate that
holds of the accumulator and of everything fed in. -/
theorem mergeFetched_foldl_pred (H : Bytes → Nat) (P : ShardedData → Prop)
    (l : List ShardedData) :
    ∀ (acc : List ShardedData) (st : Storage),
      (∀ d ∈ acc, P d) → (∀ d ∈ l, P d) →
      ∀ d ∈ (l.foldl (mergeFetched H) (acc, st)).1, P d := by
  induction l with
  | nil => intro acc st hacc _ d hd; exact hacc d hd
  | cons x t ih =>
    intro acc st hacc hl d hd
    rw [List.foldl_cons] at hd
    have hx : P x := hl x (List.mem_cons_self x t)
    have ht : ∀ e ∈ t, P e := fun e he => hl e (List.mem_cons_of_mem x he)
    rcases hmf : mergeFetched H (acc, st) x with ⟨acc', st'⟩
    rw [hmf] at hd
    unfold mergeFetched at hmf
    split at hmf
    · injection hmf with h1 h2
      subst h1; subst h2
      exact ih acc st hacc ht d hd
    · injection hmf with h1 h2
      subst h1; subst h2
      refine ih _ _ ?_ ht d hd
      intro e he
      rcases List.mem_append.mp he with he | he
      · exact hacc e he
      · simpa [List.mem_singleton.mp he] using hx

/-- Everything `fetchFromNetwork` returns came from one of the replies. -/
theorem fetchFromNetwork_subset (H : Bytes → Nat) (st : Storage)
    (geohashPre : Bytes) (dataType : Option DataType)
    (responses : List (List ShardedData)) :
    ∀ d ∈ fetchFromNetwork H st geohashPre dataType responses,
      ∃ r ∈ responses, d ∈ r := by
  intro d hd
  unfold fetchFromNetwork at hd
  split at hd <;>
  · simp only at hd
    split at hd
    · simp at hd
    · exact firstHit_subset _ responses d hd

/-- Claim C2, counterexample to the claim as stated: with no local data,
one known peer, and a peer reply containing an item whose geohash "zzz"
does not start with the queried prefix "abc", `get_by_geohash` returns
that item — the merge loop does not re-check the prefix on fetched
items. -/
theorem getByGeohash_foreign_item :
    ¬ (∀ d ∈ (Storage.getByGeohash (fun _ => 0) 0
          { peerId := bs "me", myGeohash := [], localData := [],
            infrastructureCache := [], viewedShards := [],
            peerAddresses := [(bs "p", bs "addr")] }
          (bs "abc") none
          [[{ dataId := bs "bad", dataType := DataType.traceroute,
              geohash := bs "zzz", data := .jnull, timestamp := 0, ttl := 86400,
              replicationFactor := 3, isPermanent := false,
              sourcePeerId := bs "p" }]]).1,
        (bs "abc").isPrefixOf d.geohash = true) := by
  decide

/-- Claim C2, amended.
Every item `get_by_geohash` returns from the local caches has a geohash
starting with the queried prefix; items merged in from the network fetch
are forwarded as the peer sent them, so the guarantee extends to them
exactly when every item in the peers' replies matches the prefix (as
replies produced by this same code base do). -/
theorem getByGeohash_geohash_matches (H : Bytes → Nat) (now : Int)
    (st : Storage) (geohashPre : Bytes) (dataType : Option DataType)
    (responses : List (List ShardedData))
    (hres : ∀ r ∈ responses, ∀ d ∈ r, geohashPre.isPrefixOf d.geohash = true) :
    ∀ d ∈ (st.getByGeohash H now geohashPre dataType responses).1,
      geohashPre.isPrefixOf d.geohash = true := by
  intro d hd
  unfold Storage.getByGeohash at hd
  set keep : ShardedData → Bool := fun d =>
    geohashPre.isPrefixOf d.geohash &&
      (dataType.isNone || dataType = some d.dataType) with hkeep
  have hkeepP : ∀ e : ShardedData, keep e = true →
      geohashPre.isPrefixOf e.geohash = true := by
    intro e he
    rw [hkeep] at he
    simp only [Bool.and_eq_true] at he
    exact he.1
  simp only at hd
  set localResults :=
    ((st.localData.filter (fun p => !p.2.isExpired now)).map Prod.snd).filter keep
    with hlr
  set infraResults := (st.infrastructureCache.map Prod.snd).filter
    (fun e => keep e && !(localResults.map ShardedData.dataId).contains e.dataId)
    with hir
  have hbase : ∀ e ∈ localResults ++ infraResults,
      geohashPre.isPrefixOf e.geohash = true := by
    intro e he
    rcases List.mem_append.mp he with he | he
    · exact hkeepP e (List.of_mem_filter he)
    · have h2 := List.of_mem_filter he
      simp only [Bool.and_eq_true] at h2
      exact hkeepP e h2.1
  split at hd
  · refine mergeFetched_foldl_pred H _ _ _ _ hbase ?_ d hd
    intro e he
    obtain ⟨r, hr, her⟩ := fetchFromNetwork_subset H _ _ _ _ e he
    exact hres r hr e her
  · exact hbase d hd

/-- Witness for the amended C2 at concrete inputs: the replies all match
the prefix, and every returned item matches the prefix. -/
theorem getByGeohash_geohash_matches_witness :
    (∀ r ∈ [[({ dataId := bs "good", dataType := DataType.traceroute,
                geohash := bs "abcde", data := .jnull, timestamp := 0,
                ttl := 86400, replicationFactor := 3, isPermanent := false,
                sourcePeerId := bs "p" } : ShardedData)]],
        ∀ d ∈ r, (bs "abc").isPrefixOf d.geohash = true) ∧
    (∀ d ∈ (Storage.getByGeohash (fun _ => 0) 0
        { peerId := bs "me", myGeohash := [], localData := [],
          infrastructureCache := [], viewedShards := [],
          peerAddresses := [(bs "p", bs "addr")] }
        (bs "abc") none
        [[{ dataId := bs "good", dataType := DataType.traceroute,
            geohash := bs "abcde", data := .jnull, timestamp := 0, ttl := 86400,
            replicationFactor := 3, isPermanent := false,
            sourcePeerId := bs "p" }]]).1,
      (bs "abc").isPrefixOf d.geohash = true) :=
  ⟨by decide,
   getByGeohash_geohash_matches (fun _ => 0) 0 _ (bs "abc") none _ (by decide)⟩

/-- Claim C1 (the code contradicts it, in two ways, at these explicit
inputs).
With sharing disabled: (1) `submit_traceroute` still posts the raw trace
to a known peer through the unconditional legacy `/p2p/traceroute` loop,
so a submitted trace IS pushed outward; (2) a trace submitted through the
mobile bridge is retained locally with no outward post, but
`_handle_full_sync` never consults `_share_data`, so the next full-sync
request from any contributing peer receives that trace — the full-sync
response does not contain zero traces. -/
theorem sharingDisabled_full_sync_and_push :
    ((submitTraceroute 0 sampleNode (bs "target") 3 (bs "id1")).2 =
      [OutMsg.postTraceroute (bs "h:80") (bs "me") (bs "target")]) ∧
    ((handleMobileTraceroute 0 sampleNode (bs "tok") (bs "id2")).2.2 = []) ∧
    ((handleFullSync true 0
        (handleMobileTraceroute 0 sampleNode (bs "tok") (bs "id2")).2.1).1 =
      .full [{ tracerouteId := bs "id2", sourcePeerId := bs "mobile_x",
               targetPeerId := some (bs "me"), timestamp := 0,
               isMobile := true }] 1) := by
  refine ⟨?_, ?_, ?_⟩ <;> rfl

/-- Claim C10, counterexample to the claim as stated: the handler parses
the request body before looking at the `Authorization` header, so a
request with an unparseable body and an absent header escapes as an
exception (HTTP 500), not 401. -/
theorem mobileRegister_malformed_body :
    (handleMobileRegister 0 sampleNode [] none (bs "t") (bs "x")).1 =
      MobileResult.serverError := by
  rfl

/-- Claim C10, amended.
For requests whose body parses as JSON, the register endpoint answers 401
exactly when the `Authorization` header is absent or empty; when the
header is non-empty and the body is a JSON object it always issues the
fresh opaque token, recording its expiry as 30 days (86400·30 seconds)
after issue; and the response and state never depend on the content of a
non-empty header — no stored credential is consulted.  (A request whose
body is not valid JSON, or — with a non-empty header — not a JSON object,
instead escapes as an exception.) -/
theorem mobileRegister_spec :
    (∀ (now : Int) (st : NodeState) (auth : Bytes) (v : JVal)
        (freshToken freshPeerHex : Bytes),
        (handleMobileRegister now st auth (some v) freshToken freshPeerHex).1 =
          MobileResult.unauthorized ↔ auth = []) ∧
    (∀ (now : Int) (st : NodeState) (auth : Bytes) (kvs : List (Bytes × JVal))
        (freshToken freshPeerHex : Bytes),
        auth ≠ [] →
        (handleMobileRegister now st auth (some (.jobj kvs)) freshToken
            freshPeerHex).1 =
          MobileResult.ok (.jobj [
            (bs "token", .jstr freshToken),
            (bs "expires_in", .jnum (86400 * 30))]) ∧
        ∃ entry, assocFind freshToken
            (handleMobileRegister now st auth (some (.jobj kvs)) freshToken
              freshPeerHex).2.mobileTokens = some entry ∧
          entry.expires = now + 86400 * 30) ∧
    (∀ (now : Int) (st : NodeState) (auth1 auth2 : Bytes) (body : Option JVal)
        (freshToken freshPeerHex : Bytes),
        auth1 ≠ [] → auth2 ≠ [] →
        handleMobileRegister now st auth1 body freshToken freshPeerHex =
          handleMobileRegister now st auth2 body freshToken freshPeerHex) := by
  refine ⟨?_, ?_, ?_⟩
  · intro now st auth v freshToken freshPeerHex
    constructor
    · intro h
      by_contra hne
      have hne' : auth.isEmpty = false := by
        cases auth with
        | nil => exact absurd rfl hne
        | cons a t => rfl
      cases v <;> simp [handleMobileRegister, hne'] at h
    · intro h
      subst h
      rfl
  · intro now st auth kvs freshToken freshPeerHex hne
    have hne' : auth.isEmpty = false := by
      cases auth with
      | nil => exact absurd rfl hne
      | cons a t => rfl
    refine ⟨by simp [handleMobileRegister, hne'], ?_⟩
    refine ⟨{ peerId := bs "mobile_" ++ freshPeerHex,
              deviceName :=
                match (assocGet (bs "device_name") kvs).getD (.jstr (bs "Mobile Device")) with
                | .jstr s => s
                | _ => bs "Mobile Device",
              created := now, expires := now + 86400 * 30,
              homePeerId := st.peerId }, ?_, rfl⟩
    simp only [handleMobileRegister, hne', Bool.false_eq_true, if_false]
    exact assocFind_assocSet _ _ _
  · intro now st auth1 auth2 body freshToken freshPeerHex h1 h2
    have h1' : auth1.isEmpty = false := by
      cases auth1 with
      | nil => exact absurd rfl h1
      | cons a t => rfl
    have h2' : auth2.isEmpty = false := by
      cases auth2 with
      | nil => exact absurd rfl h2
      | cons a t => rfl
    cases body with
    | none => rfl
    | some v => simp [handleMobileRegister, h1', h2']

/-- Witness for the amended C10 at concrete inputs. -/
theorem mobileRegister_spec_witness :
    ((handleMobileRegister 0 sampleNode (bs "Bearer x") (some (.jobj []))
        (bs "t1") (bs "ab")).1 =
      MobileResult.ok (.jobj [
        (bs "token", .jstr (bs "t1")),
        (bs "expires_in", .jnum (86400 * 30))])) ∧
    handleMobileRegister 0 sampleNode (bs "A") (some (.jobj [])) (bs "t1") (bs "ab") =
      handleMobileRegister 0 sampleNode (bs "B") (some (.jobj [])) (bs "t1") (bs "ab") :=
  ⟨(mobileRegister_spec.2.1 0 sampleNode (bs "Bearer x") [] (bs "t1") (bs "ab")
      (by decide)).1,
   mobileRegister_spec.2.2 0 sampleNode (bs "A") (bs "B") (some (.jobj []))
      (bs "t1") (bs "ab") (by decide) (by decide)⟩

/-! ## Geohash lemmas -/

/-- Encoding emits exactly `precision` characters. -/
theorem encodeGeohashAux_length (lat lon : ℚ) :
    ∀ (n : Nat) (s : GeoState), (encodeGeohashAux lat lon n s).length = n := by
  intro n
  induction n with
  | zero => intro s; rfl
  | succ k ih =>
    intro s
    simp only [encodeGeohashAux]
    rw [List.length_cons, ih]

/-- The four possible outcomes of one bisection step. -/
theorem encodeBit_cases (lat lon : ℚ) (s : GeoState) :
    (s.isLon = true ∧ lon ≥ (s.lonLo + s.lonHi) / 2 ∧
      encodeBit lat lon s =
        (1, { s with lonLo := (s.lonLo + s.lonHi) / 2, isLon := false })) ∨
    (s.isLon = true ∧ ¬ lon ≥ (s.lonLo + s.lonHi) / 2 ∧
      encodeBit lat lon s =
        (0, { s with lonHi := (s.lonLo + s.lonHi) / 2, isLon := false })) ∨
    (s.isLon = false ∧ lat ≥ (s.latLo + s.latHi) / 2 ∧
      encodeBit lat lon s =
        (1, { s with latLo := (s.latLo + s.latHi) / 2, isLon := true })) ∨
    (s.isLon = false ∧ ¬ lat ≥ (s.latLo + s.latHi) / 2 ∧
      encodeBit lat lon s =
        (0, { s with latHi := (s.latLo + s.latHi) / 2, isLon := true })) := by
  rcases hl : s.isLon
  · by_cases hc : lat ≥ (s.latLo + s.latHi) / 2
    · exact Or.inr (Or.inr (Or.inl ⟨rfl, hc, by rw [encodeBit]; simp [hl, hc]⟩))
    · exact Or.inr (Or.inr (Or.inr ⟨rfl, hc, by rw [encodeBit]; simp [hl, hc]⟩))
  · by_cases hc : lon ≥ (s.lonLo + s.lonHi) / 2
    · exact Or.inl ⟨rfl, hc, by rw [encodeBit]; simp [hl, hc]⟩
    · exact Or.inr (Or.inl ⟨rfl, hc, by rw [encodeBit]; simp [hl, hc]⟩)

/-- Each bisection step emits a bit. -/
theorem encodeBit_fst_le_one (lat lon : ℚ) (s : GeoState) :
    (encodeBit lat lon s).1 ≤ 1 := by
  rcases encodeBit_cases lat lon s with ⟨_, _, he⟩ | ⟨_, _, he⟩ | ⟨_, _, he⟩ | ⟨_, _, he⟩ <;>
    rw [he]
  all_goals simp

/-- Each character index is a base32 index. -/
theorem encodeChar_fst_lt_32 (lat lon : ℚ) (s : GeoState) :
    (encodeChar lat lon s).1 < 32 := by
  unfold encodeChar
  have h0 := encodeBit_fst_le_one lat lon s
  have h1 := encodeBit_fst_le_one lat lon (encodeBit lat lon s).2
  have h2 := encodeBit_fst_le_one lat lon (encodeBit lat lon (encodeBit lat lon s).2).2
  have h3 := encodeBit_fst_le_one lat lon
    (encodeBit lat lon (encodeBit lat lon (encodeBit lat lon s).2).2).2
  have h4 := encodeBit_fst_le_one lat lon
    (encodeBit lat lon (encodeBit lat lon (encodeBit lat lon (encodeBit lat lon s).2).2).2).2
  simp only
  omega

/-- Looking a base32 character back up finds its index. -/
theorem base32Index_getD (i : Nat) (h : i < 32) :
    base32Index (BASE32.getD i 0) = some i := by
  revert h
  revert i
  decide

/-- Decoding a bit that encoding emitted retraces encoding's range step. -/
theorem decodeBit_encodeBit (lat lon : ℚ) (s : GeoState) :
    decodeBit (encodeBit lat lon s).1 s = (encodeBit lat lon s).2 := by
  rcases encodeBit_cases lat lon s with ⟨hl, _, he⟩ | ⟨hl, _, he⟩ | ⟨hl, _, he⟩ | ⟨hl, _, he⟩ <;>
    rw [he, decodeBit] <;> simp [hl]

/-- Decoding a character that encoding emitted retraces its five steps. -/
theorem decodeCharIdx_encodeChar (lat lon : ℚ) (s : GeoState) :
    decodeCharIdx (encodeChar lat lon s).1 s = (encodeChar lat lon s).2 := by
  rcases h0 : encodeBit lat lon s with ⟨b0, s0⟩
  rcases h1 : encodeBit lat lon s0 with ⟨b1, s1⟩
  rcases h2 : encodeBit lat lon s1 with ⟨b2, s2⟩
  rcases h3 : encodeBit lat lon s2 with ⟨b3, s3⟩
  rcases h4 : encodeBit lat lon s3 with ⟨b4, s4⟩
  have hb0 : b0 ≤ 1 := by have := encodeBit_fst_le_one lat lon s; rw [h0] at this; exact this
  have hb1 : b1 ≤ 1 := by have := encodeBit_fst_le_one lat lon s0; rw [h1] at this; exact this
  have hb2 : b2 ≤ 1 := by have := encodeBit_fst_le_one lat lon s1; rw [h2] at this; exact this
  have hb3 : b3 ≤ 1 := by have := encodeBit_fst_le_one lat lon s2; rw [h3] at this; exact this
  have hb4 : b4 ≤ 1 := by have := encodeBit_fst_le_one lat lon s3; rw [h4] at this; exact this
  have hchar : encodeChar lat lon s =
      (2 * (2 * (2 * (2 * b0 + b1) + b2) + b3) + b4, s4) := by
    simp only [encodeChar, h0, h1, h2, h3, h4]
  rw [hchar]
  set idx := 2 * (2 * (2 * (2 * b0 + b1) + b2) + b3) + b4 with hidx
  have e0 : idx / 16 % 2 = b0 := by omega
  have e1 : idx / 8 % 2 = b1 := by omega
  have e2 : idx / 4 % 2 = b2 := by omega
  have e3 : idx / 2 % 2 = b3 := by omega
  have e4 : idx % 2 = b4 := by omega
  have d0 : decodeBit b0 s = s0 := by
    have := decodeBit_encodeBit lat lon s; rw [h0] at this; exact this
  have d1 : decodeBit b1 s0 = s1 := by
    have := decodeBit_encodeBit lat lon s0; rw [h1] at this; exact this
  have d2 : decodeBit b2 s1 = s2 := by
    have := decodeBit_encodeBit lat lon s1; rw [h2] at this; exact this
  have d3 : decodeBit b3 s2 = s3 := by
    have := decodeBit_encodeBit lat lon s2; rw [h3] at this; exact this
  have d4 : decodeBit b4 s3 = s4 := by
    have := decodeBit_encodeBit lat lon s3; rw [h4] at this; exact this
  unfold decodeCharIdx
  simp only
  rw [e0, d0, e1, d1, e2, d2, e3, d3, e4, d4]

/-- Decoding retraces encoding character by character. -/
theorem decodeGeohashAux_encodeGeohashAux (lat lon : ℚ) :
    ∀ (n : Nat) (s : GeoState),
      decodeGeohashAux (encodeGeohashAux lat lon n s) s =
        some (encStateChars lat lon n s) := by
  intro n
  induction n with
  | zero => intro s; rfl
  | succ k ih =>
    intro s
    simp only [encodeGeohashAux, decodeGeohashAux, encStateChars]
    rw [base32Index_getD _ (encodeChar_fst_lt_32 lat lon s)]
    dsimp only
    rw [decodeCharIdx_encodeChar]
    exact ih _

/-- Decoding an encoded point gives the final bisection state's center. -/
theorem decodeGeohash_encodeGeohash (lat lon : ℚ) (p : Nat) :
    decodeGeohash (encodeGeohash lat lon p) =
      some (((encStateChars lat lon p geoInit).latLo +
              (encStateChars lat lon p geoInit).latHi) / 2,
            ((encStateChars lat lon p geoInit).lonLo +
              (encStateChars lat lon p geoInit).lonHi) / 2) := by
  unfold decodeGeohash encodeGeohash
  rw [decodeGeohashAux_encodeGeohashAux]
  rfl

/-- Splitting bit states off the right of the iteration. -/
theorem encStateBits_succ_right (lat lon : ℚ) :
    ∀ (k : Nat) (s : GeoState),
      encStateBits lat lon (k + 1) s =
        (encodeBit lat lon (encStateBits lat lon k s)).2 := by
  intro k
  induction k with
  | zero => intro s; rfl
  | succ m ih =>
    intro s
    calc encStateBits lat lon (m + 2) s
        = encStateBits lat lon (m + 1) (encodeBit lat lon s).2 := rfl
      _ = (encodeBit lat lon (encStateBits lat lon m (encodeBit lat lon s).2)).2 :=
          ih _
      _ = (encodeBit lat lon (encStateBits lat lon (m + 1) s)).2 := rfl

/-- A character iteration is five bit iterations. -/
theorem encStateChars_eq_bits (lat lon : ℚ) :
    ∀ (n : Nat) (s : GeoState),
      encStateChars lat lon n s = encStateBits lat lon (5 * n) s := by
  intro n
  induction n with
  | zero => intro s; rfl
  | succ m ih =>
    intro s
    have hchar : (encodeChar lat lon s).2 = encStateBits lat lon 5 s := rfl
    calc encStateChars lat lon (m + 1) s
        = encStateChars lat lon m (encodeChar lat lon s).2 := rfl
      _ = encStateBits lat lon (5 * m) (encStateBits lat lon 5 s) := by
          rw [ih, hchar]
      _ = encStateBits lat lon (5 * (m + 1)) s := by
          have : ∀ (a b : Nat) (t : GeoState),
              encStateBits lat lon b (encStateBits lat lon a t) =
                encStateBits lat lon (a + b) t := by
            intro a
            induction a with
            | zero => intro b t; simp [encStateBits]
            | succ x ihx =>
              intro b t
              calc encStateBits lat lon b
                    (encStateBits lat lon (x + 1) t)
                  = encStateBits lat lon b
                      (encStateBits lat lon x (encodeBit lat lon t).2) := rfl
                _ = encStateBits lat lon (x + b) (encodeBit lat lon t).2 := ihx _ _
                _ = encStateBits lat lon (x + 1 + b) t := by
                    have : x + 1 + b = (x + b) + 1 := by omega
                    rw [this]
                    rw [encStateBits]
          rw [this]
          congr 1
          omega

/-- The point stays inside the ranges, the ranges stay nested and ordered,
the axis parity alternates, and each range width halves with its axis's
bits: the full invariant of the bisection loop after `k` bits. -/
theorem encStateBits_invariant (lat lon : ℚ)
    (hla : -90 ≤ lat) (hlb : lat ≤ 90) (hoa : -180 ≤ lon) (hob : lon ≤ 180) :
    ∀ k : Nat,
      stateInv lat lon (encStateBits lat lon k geoInit) ∧
      rangesOk (encStateBits lat lon k geoInit) ∧
      (encStateBits lat lon k geoInit).isLon = decide (k % 2 = 0) ∧
      (encStateBits lat lon k geoInit).latHi -
        (encStateBits lat lon k geoInit).latLo = 180 / 2 ^ (k / 2) ∧
      (encStateBits lat lon k geoInit).lonHi -
        (encStateBits lat lon k geoInit).lonLo = 360 / 2 ^ ((k + 1) / 2) := by
  intro k
  induction k with
  | zero =>
    refine ⟨⟨?_, ?_, ?_, ?_⟩, ⟨?_, ?_, ?_, ?_, ?_, ?_⟩, ?_, ?_, ?_⟩ <;>
      simp [encStateBits, geoInit, stateInv, rangesOk, hla, hlb, hoa, hob] <;> norm_num
  | succ m ih =>
    obtain ⟨⟨i1, i2, i3, i4⟩, ⟨r1, r2, r3, r4, r5, r6⟩, hpar, hwlat, hwlon⟩ := ih
    set s := encStateBits lat lon m geoInit with hs
    rw [encStateBits_succ_right]
    rw [← hs]
    rcases encodeBit_cases lat lon s with ⟨hl, hc, he⟩ | ⟨hl, hc, he⟩ |
      ⟨hl, hc, he⟩ | ⟨hl, hc, he⟩ <;> rw [he] <;>
      simp only [stateInv, rangesOk] at *
    · -- lon bit 1: lonLo := mid
      have hm : m % 2 = 0 := by
        rw [hl] at hpar
        by_contra hmm
        simp [hmm] at hpar
      refine ⟨⟨i1, i2, hc, i4⟩, ⟨r1, r2, r3, by linarith, by linarith, r6⟩, ?_, ?_, ?_⟩
      · have h1 : (m + 1) % 2 = 1 := by omega
        simp [h1]
      · show s.latHi - s.latLo = _
        rw [hwlat]
        congr 2
        omega
      · show s.lonHi - (s.lonLo + s.lonHi) / 2 = _
        have hexp : (m + 1 + 1) / 2 = (m + 1) / 2 + 1 := by omega
        rw [hexp, pow_succ, div_mul_eq_div_div, ← hwlon]
        ring
    · -- lon bit 0: lonHi := mid
      have hm : m % 2 = 0 := by
        rw [hl] at hpar
        by_contra hmm
        simp [hmm] at hpar
      push_neg at hc
      refine ⟨⟨i1, i2, i3, le_of_lt hc⟩,
        ⟨r1, r2, r3, r4, by linarith, by linarith⟩, ?_, ?_, ?_⟩
      · have h1 : (m + 1) % 2 = 1 := by omega
        simp [h1]
      · show s.latHi - s.latLo = _
        rw [hwlat]
        congr 2
        omega
      · show (s.lonLo + s.lonHi) / 2 - s.lonLo = _
        have hexp : (m + 1 + 1) / 2 = (m + 1) / 2 + 1 := by omega
        rw [hexp, pow_succ, div_mul_eq_div_div, ← hwlon]
        ring
    · -- lat bit 1: latLo := mid
      have hm : m % 2 = 1 := by
        rw [hl] at hpar
        by_contra hmm
        have h0 : m % 2 = 0 := by omega
        simp [h0] at hpar
      refine ⟨⟨hc, i2, i3, i4⟩, ⟨by linarith, by linarith, r3, r4, r5, r6⟩, ?_, ?_, ?_⟩
      · have h1 : (m + 1) % 2 = 0 := by omega
        simp [h1]
      · show s.latHi - (s.latLo + s.latHi) / 2 = _
        have hexp : (m + 1) / 2 = m / 2 + 1 := by omega
        rw [hexp, pow_succ, div_mul_eq_div_div, ← hwlat]
        ring
      · show s.lonHi - s.lonLo = _
        rw [hwlon]
        congr 2
        omega
    · -- lat bit 0: latHi := mid
      have hm : m % 2 = 1 := by
        rw [hl] at hpar
        by_contra hmm
        have h0 : m % 2 = 0 := by omega
        simp [h0] at hpar
      push_neg at hc
      refine ⟨⟨i1, le_of_lt hc, i3, i4⟩,
        ⟨r1, by linarith, by linarith, r4, r5, r6⟩, ?_, ?_, ?_⟩
      · have h1 : (m + 1) % 2 = 0 := by omega
        simp [h1]
      · show (s.latLo + s.latHi) / 2 - s.latLo = _
        have hexp : (m + 1) / 2 = m / 2 + 1 := by omega
        rw [hexp, pow_succ, div_mul_eq_div_div, ← hwlat]
        ring
      · show s.lonHi - s.lonLo = _
        rw [hwlon]
        congr 2
        omega

/-- Decoding an encoded in-range point gives a center within half a cell of
the point, itself inside the initial ranges. -/
theorem decode_encode_center (lat lon : ℚ) (p : Nat)
    (hla : -90 ≤ lat) (hlb : lat ≤ 90) (hoa : -180 ≤ lon) (hob : lon ≤ 180) :
    ∃ clat clon,
      decodeGeohash (encodeGeohash lat lon p) = some (clat, clon) ∧
      |clat - lat| ≤ latDelta p / 2 ∧ |clon - lon| ≤ lonDelta p / 2 ∧
      -90 ≤ clat ∧ clat ≤ 90 ∧ -180 ≤ clon ∧ clon ≤ 180 := by
  obtain ⟨⟨i1, i2, i3, i4⟩, ⟨r1, r2, r3, r4, r5, r6⟩, _, hwlat, hwlon⟩ :=
    encStateBits_invariant lat lon hla hlb hoa hob (5 * p)
  have hdec := decodeGeohash_encodeGeohash lat lon p
  rw [encStateChars_eq_bits] at hdec
  set f := encStateBits lat lon (5 * p) geoInit with hf
  have hdlat : latDelta p = 180 / 2 ^ (5 * p / 2) := by
    rw [latDelta, Nat.mul_comm]
  have hdlon : lonDelta p = 360 / 2 ^ ((5 * p + 1) / 2) := by
    rw [lonDelta, Nat.mul_comm]
  refine ⟨(f.latLo + f.latHi) / 2, (f.lonLo + f.lonHi) / 2, hdec, ?_, ?_, ?_, ?_, ?_, ?_⟩
  · rw [abs_le, hdlat]
    constructor <;> linarith
  · rw [abs_le, hdlon]
    constructor <;> linarith
  · linarith
  · linarith
  · linarith
  · linarith

/-- The eight offsets of the neighbor loop, given nonzero cell sizes. -/
theorem neighborOffsets_eq (a b : ℚ) (ha : a ≠ 0) (hb : b ≠ 0) :
    neighborOffsets a b =
      [(-a, -b), (-a, 0), (-a, b), (0, -b), (0, b), (a, -b), (a, 0), (a, b)] := by
  simp [neighborOffsets, ha, hb]

/-- Cell sizes are positive. -/
theorem latDelta_pos (p : Nat) : 0 < latDelta p := by
  rw [latDelta]; positivity

theorem lonDelta_pos (p : Nat) : 0 < lonDelta p := by
  rw [lonDelta]; positivity

/-- At any positive precision the cell is at most 45 degrees tall. -/
theorem latDelta_le_45 (p : Nat) (hp : 1 ≤ p) : latDelta p ≤ 45 := by
  rw [latDelta]
  have he : 2 ≤ p * 5 / 2 := by omega
  have h4 : (4 : ℚ) ≤ 2 ^ (p * 5 / 2) := by
    calc (4 : ℚ) = 2 ^ 2 := by norm_num
    _ ≤ 2 ^ (p * 5 / 2) := by
        apply pow_le_pow_right₀ (by norm_num) he
  have h45 : (45 : ℚ) = 180 / 4 := by norm_num
  rw [h45]
  gcongr

/-- At any positive precision the cell is at most 45 degrees wide. -/
theorem lonDelta_le_45 (p : Nat) (hp : 1 ≤ p) : lonDelta p ≤ 45 := by
  rw [lonDelta]
  have he : 3 ≤ (p * 5 + 1) / 2 := by omega
  have h8 : (8 : ℚ) ≤ 2 ^ ((p * 5 + 1) / 2) := by
    calc (8 : ℚ) = 2 ^ 3 := by norm_num
    _ ≤ 2 ^ ((p * 5 + 1) / 2) := by
        apply pow_le_pow_right₀ (by norm_num) he
  have h45 : (45 : ℚ) = 360 / 8 := by norm_num
  rw [h45]
  gcongr

/-- What `get_geohash_neighbors` computes on an encoded point. -/
theorem getGeohashNeighbors_encode (lat lon : ℚ) (p : Nat) :
    ∃ clat clon,
      decodeGeohash (encodeGeohash lat lon p) = some (clat, clon) ∧
      getGeohashNeighbors (encodeGeohash lat lon p) =
        some ((neighborOffsets (latDelta p) (lonDelta p)).map
          (neighborCell clat clon p)) := by
  have hdec := decodeGeohash_encodeGeohash lat lon p
  have hlen : (encodeGeohash lat lon p).length = p :=
    encodeGeohashAux_length lat lon p geoInit
  refine ⟨_, _, hdec, ?_⟩
  unfold getGeohashNeighbors
  rw [hdec]
  simp only [Option.map_some]
  rw [hlen]
  rfl

/-- If a point (in range) encodes to `g`, then `g`'s decoded center is
within half a cell of the point. -/
theorem center_of_encode_eq (x y clat clon : ℚ) (p : Nat) (g : Bytes)
    (hxa : -90 ≤ x) (hxb : x ≤ 90) (hya : -180 ≤ y) (hyb : y ≤ 180)
    (heq : encodeGeohash x y p = g)
    (hg : decodeGeohash g = some (clat, clon)) :
    |clat - x| ≤ latDelta p / 2 ∧ |clon - y| ≤ lonDelta p / 2 := by
  obtain ⟨a, b, hd, ha1, ha2, _⟩ := decode_encode_center x y p hxa hxb hya hyb
  rw [heq, hg] at hd
  injection hd with hd
  injection hd with h1 h2
  subst h1
  subst h2
  exact ⟨ha1, ha2⟩

set_option maxHeartbeats 2000000 in
/-- Claim C8, counterexample to the claim as stated: at the north pole the
latitude clamp makes the "north" neighbor re-encode to the origin cell, so
`get_geohash_neighbors(encode_geohash(90, 22.5, 1))` contains the origin
cell itself. -/
theorem neighbors_contain_origin_at_pole :
    encodeGeohash 90 (45 / 2) 1 = bs "u" ∧
    getGeohashNeighbors (bs "u") =
      some [bs "e", bs "s", bs "t", bs "g", bs "v", bs "g", bs "u", bs "v"] ∧
    bs "u" ∈ [bs "e", bs "s", bs "t", bs "g", bs "v", bs "g", bs "u", bs "v"] := by
  have hidx : base32Index ('u'.toNat) = some 26 := by decide
  refine ⟨?_, ?_, by decide⟩ <;>
    norm_num [encodeGeohash, encodeGeohashAux, encodeChar, encodeBit, geoInit,
      getGeohashNeighbors, decodeGeohash, decodeGeohashAux, decodeCharIdx,
      decodeBit, hidx, BASE32, bs, neighborOffsets, neighborCell,
      List.filterMap, List.getD]

/-- Claim C8, amended.
For every latitude, longitude and precision,
`get_geohash_neighbors(encode_geohash(lat, lon, p))` returns exactly 8
geohash cells, each of the same precision `p`; and — for an in-range point
at positive precision — none of them equals the origin cell whenever no
latitude clamping occurs, i.e. whenever the decoded center is at least one
cell height away from both poles.  (At pole-row cells the clamp can
re-encode the origin cell itself; see the counterexample.) -/
theorem neighbors_of_encode_spec :
    (∀ (lat lon : ℚ) (p : Nat), ∃ l,
        getGeohashNeighbors (encodeGeohash lat lon p) = some l ∧
        l.length = 8 ∧ ∀ g ∈ l, g.length = p) ∧
    (∀ (lat lon clat clon : ℚ) (p : Nat),
        1 ≤ p → -90 ≤ lat → lat ≤ 90 → -180 ≤ lon → lon ≤ 180 →
        decodeGeohash (encodeGeohash lat lon p) = some (clat, clon) →
        clat + latDelta p ≤ 90 → -90 ≤ clat - latDelta p →
        ∀ l, getGeohashNeighbors (encodeGeohash lat lon p) = some l →
          encodeGeohash lat lon p ∉ l) := by
  have hoff : ∀ p : Nat, neighborOffsets (latDelta p) (lonDelta p) =
      [(-latDelta p, -lonDelta p), (-latDelta p, 0), (-latDelta p, lonDelta p),
       (0, -lonDelta p), (0, lonDelta p),
       (latDelta p, -lonDelta p), (latDelta p, 0), (latDelta p, lonDelta p)] :=
    fun p => neighborOffsets_eq _ _ (ne_of_gt (latDelta_pos p))
      (ne_of_gt (lonDelta_pos p))
  constructor
  · intro lat lon p
    obtain ⟨clat, clon, _, hng⟩ := getGeohashNeighbors_encode lat lon p
    refine ⟨_, hng, ?_, ?_⟩
    · rw [List.length_map, hoff p]
      rfl
    · intro g hg
      obtain ⟨d, _, hgd⟩ := List.mem_map.mp hg
      rw [← hgd]
      exact encodeGeohashAux_length _ _ p geoInit
  · intro lat lon clat clon p hp hla hlb hoa hob hdec hnc1 hnc2 l hl hmem
    obtain ⟨c1, c2, hdec2, hng⟩ := getGeohashNeighbors_encode lat lon p
    rw [hdec] at hdec2
    injection hdec2 with hdec2
    injection hdec2 with hc1 hc2
    subst hc1; subst hc2
    rw [hng] at hl
    injection hl with hl
    subst hl
    obtain ⟨d, hd, he⟩ := List.mem_map.mp hmem
    rw [hoff p] at hd
    have hΔ := latDelta_pos p
    have hE := lonDelta_pos p
    have hE45 := lonDelta_le_45 p hp
    -- the origin center is in range
    have hcr : -90 ≤ clat ∧ clat ≤ 90 ∧ -180 ≤ clon ∧ clon ≤ 180 := by
      obtain ⟨a, b, hda, _, _, q1, q2, q3, q4⟩ :=
        decode_encode_center lat lon p hla hlb hoa hob
      rw [hdec] at hda
      injection hda with hda
      injection hda with h1 h2
      subst h1; subst h2
      exact ⟨q1, q2, q3, q4⟩
    obtain ⟨hq1, hq2, hq3, hq4⟩ := hcr
    -- the lat clamp is the identity on the three relevant values
    have hclampUp : max (-90 : ℚ) (min 90 (clat + latDelta p)) = clat + latDelta p := by
      rw [min_eq_right hnc1, max_eq_right (by linarith)]
    have hclampDn : max (-90 : ℚ) (min 90 (clat + -latDelta p)) = clat - latDelta p := by
      rw [min_eq_right (by linarith), max_eq_right (by linarith)]
      ring
    have hclampId : max (-90 : ℚ) (min 90 (clat + 0)) = clat := by
      rw [add_zero, min_eq_right hq2, max_eq_right hq1]
    -- a bundled contradiction for each vertical offset ±latDelta
    have hlatcase : ∀ d2 : ℚ, neighborCell clat clon p (latDelta p, d2) =
        encodeGeohash lat lon p → -225 ≤ clon + d2 → clon + d2 ≤ 225 → False := by
      intro d2 hee hb1 hb2
      rw [neighborCell] at hee
      simp only at hee
      rw [hclampUp] at hee
      by_cases hw1 : clon + d2 > 180
      · rw [if_pos hw1] at hee
        obtain ⟨hA, _⟩ := center_of_encode_eq _ _ clat clon p _ (by linarith) hnc1
          (by linarith) (by linarith) hee hdec
        rw [abs_le] at hA
        have h1 := hA.1
        linarith
      · rw [if_neg hw1] at hee
        by_cases hw2 : clon + d2 < -180
        · rw [if_pos hw2] at hee
          obtain ⟨hA, _⟩ := center_of_encode_eq _ _ clat clon p _ (by linarith) hnc1
            (by linarith) (by linarith) hee hdec
          rw [abs_le] at hA
          have h1 := hA.1
          linarith
        · rw [if_neg hw2] at hee
          obtain ⟨hA, _⟩ := center_of_encode_eq _ _ clat clon p _ (by linarith) hnc1
            (by linarith) (by linarith) hee hdec
          rw [abs_le] at hA
          have h1 := hA.1
          linarith
    have hlatcaseDn : ∀ d2 : ℚ, neighborCell clat clon p (-latDelta p, d2) =
        encodeGeohash lat lon p → -225 ≤ clon + d2 → clon + d2 ≤ 225 → False := by
      intro d2 hee hb1 hb2
      rw [neighborCell] at hee
      simp only at hee
      rw [hclampDn] at hee
      by_cases hw1 : clon + d2 > 180
      · rw [if_pos hw1] at hee
        obtain ⟨hA, _⟩ := center_of_encode_eq _ _ clat clon p _ hnc2 (by linarith)
          (by linarith) (by linarith) hee hdec
        rw [abs_le] at hA
        have h1 := hA.2
        linarith
      · rw [if_neg hw1] at hee
        by_cases hw2 : clon + d2 < -180
        · rw [if_pos hw2] at hee
          obtain ⟨hA, _⟩ := center_of_encode_eq _ _ clat clon p _ hnc2 (by linarith)
            (by linarith) (by linarith) hee hdec
          rw [abs_le] at hA
          have h1 := hA.2
          linarith
        · rw [if_neg hw2] at hee
          obtain ⟨hA, _⟩ := center_of_encode_eq _ _ clat clon p _ hnc2 (by linarith)
            (by linarith) (by linarith) hee hdec
          rw [abs_le] at hA
          have h1 := hA.2
          linarith
    -- horizontal offsets ±lonDelta with no vertical move
    have hloncase : ∀ d2 : ℚ, d2 = lonDelta p ∨ d2 = -lonDelta p →
        neighborCell clat clon p (0, d2) = encodeGeohash lat lon p → False := by
      intro d2 hd2 hee
      rw [neighborCell] at hee
      simp only at hee
      rw [hclampId] at hee
      have hb1 : -225 ≤ clon + d2 := by rcases hd2 with rfl | rfl <;> linarith
      have hb2 : clon + d2 ≤ 225 := by rcases hd2 with rfl | rfl <;> linarith
      by_cases hw1 : clon + d2 > 180
      · rw [if_pos hw1] at hee
        obtain ⟨_, hB⟩ := center_of_encode_eq _ _ clat clon p _ hq1 hq2
          (by linarith) (by linarith) hee hdec
        rw [abs_le] at hB
        obtain ⟨h1, h2⟩ := hB
        rcases hd2 with rfl | rfl <;> linarith
      · rw [if_neg hw1] at hee
        by_cases hw2 : clon + d2 < -180
        · rw [if_pos hw2] at hee
          obtain ⟨_, hB⟩ := center_of_encode_eq _ _ clat clon p _ hq1 hq2
            (by linarith) (by linarith) hee hdec
          rw [abs_le] at hB
          obtain ⟨h1, h2⟩ := hB
          rcases hd2 with rfl | rfl <;> linarith
        · rw [if_neg hw2] at hee
          obtain ⟨_, hB⟩ := center_of_encode_eq _ _ clat clon p _ hq1 hq2
            (by linarith) (by linarith) hee hdec
          rw [abs_le] at hB
          obtain ⟨h1, h2⟩ := hB
          rcases hd2 with rfl | rfl <;> linarith
    simp only [List.mem_cons, List.not_mem_nil, or_false] at hd
    rcases hd with rfl | rfl | rfl | rfl | rfl | rfl | rfl | rfl
    · exact hlatcaseDn _ he (by linarith) (by linarith)
    · exact hlatcaseDn _ he (by linarith) (by linarith)
    · exact hlatcaseDn _ he (by linarith) (by linarith)
    · exact hloncase _ (Or.inr rfl) he
    · exact hloncase _ (Or.inl rfl) he
    · exact hlatcase _ he (by linarith) (by linarith)
    · exact hlatcase _ he (by linarith) (by linarith)
    · exact hlatcase _ he (by linarith) (by linarith)

/-- Witness for the amended C8 at a concrete non-polar point. -/
theorem neighbors_of_encode_spec_witness :
    encodeGeohash 0 0 1 ∉
      ((getGeohashNeighbors (encodeGeohash 0 0 1)).getD []) := by
  obtain ⟨l, hl, _, _⟩ := neighbors_of_encode_spec.1 0 0 1
  rw [hl]
  have hidx : base32Index ('s'.toNat) = some 24 := by decide
  have hdec : decodeGeohash (encodeGeohash 0 0 1) =
      some (45 / 2, 45 / 2) := by
    norm_num [encodeGeohash, encodeGeohashAux, encodeChar, encodeBit, geoInit,
      decodeGeohash, decodeGeohashAux, decodeCharIdx, decodeBit, hidx,
      BASE32, bs, List.getD]
  exact neighbors_of_encode_spec.2 0 0 (45 / 2) (45 / 2) 1 (by decide)
    (by norm_num) (by norm_num) (by norm_num) (by norm_num) hdec
    (by rw [latDelta]; norm_num) (by rw [latDelta]; norm_num) l hl

/-! ## Bencode lemmas -/

/-- Any sufficient fuel computes the decimal digits. -/
theorem strOfNatFuel_eq : ∀ (fuel n : Nat), n < fuel →
    strOfNatFuel fuel n = strOfNat n := by
  intro fuel
  induction fuel using Nat.strong_induction_on with
  | _ fuel ih =>
    intro n h
    cases fuel with
    | zero => omega
    | succ f =>
      by_cases h10 : n < 10
      · rw [strOfNatFuel, if_pos h10, strOfNat, strOfNatFuel, if_pos h10]
      · rw [strOfNatFuel, if_neg h10, strOfNat, strOfNatFuel, if_neg h10]
        have hlt : n / 10 < n := Nat.div_lt_self (by omega) (by omega)
        rw [ih f (by omega) _ (by omega), ih n (by omega) _ hlt]

/-- The decimal digit string is nonempty, consists of digits, and folds
back to the number. -/
theorem strOfNat_spec (n : Nat) :
    strOfNat n ≠ [] ∧ (∀ c ∈ strOfNat n, 48 ≤ c ∧ c ≤ 57) ∧
    ∀ acc : Nat, List.foldl (fun a c => 10 * a + (c - 48)) acc (strOfNat n) =
      acc * 10 ^ (strOfNat n).length + n := by
  induction n using Nat.strong_induction_on with
  | _ n ih =>
    by_cases h10 : n < 10
    · have heq : strOfNat n = [n + 48] := by
        rw [strOfNat, strOfNatFuel, if_pos h10]
      rw [heq]
      refine ⟨by simp, ?_, ?_⟩
      · intro c hc
        simp only [List.mem_singleton] at hc
        omega
      · intro acc
        simp only [List.foldl_cons, List.foldl_nil, List.length_singleton]
        have : n + 48 - 48 = n := by omega
        rw [this]
        ring
    · have hlt : n / 10 < n := Nat.div_lt_self (by omega) (by omega)
      have hrec : strOfNat n = strOfNat (n / 10) ++ [n % 10 + 48] := by
        rw [strOfNat, strOfNatFuel, if_neg h10, strOfNatFuel_eq n (n / 10) hlt]
      obtain ⟨h1, h2, h3⟩ := ih (n / 10) hlt
      rw [hrec]
      refine ⟨by simp, ?_, ?_⟩
      · intro c hc
        rcases List.mem_append.mp hc with hc | hc
        · exact h2 c hc
        · simp only [List.mem_singleton] at hc
          omega
      · intro acc
        rw [List.foldl_append, h3 acc, List.length_append,
          List.length_singleton, List.foldl_cons, List.foldl_nil, pow_succ]
        have hmul : acc * (10 ^ (strOfNat (n / 10)).length * 10) =
            acc * 10 ^ (strOfNat (n / 10)).length * 10 := by ring
        rw [hmul]
        generalize acc * 10 ^ (strOfNat (n / 10)).length = X
        omega

/-- The decimal digits of `n` evaluate back to `n`. -/
theorem digitsVal_strOfNat (n : Nat) : digitsVal (strOfNat n) = n := by
  have h := (strOfNat_spec n).2.2 0
  rw [digitsVal, h]
  ring

/-- Digit strings are accepted by the int parser. -/
theorem pyInt_digits (l : Bytes) (hne : l ≠ [])
    (hd : ∀ c ∈ l, 48 ≤ c ∧ c ≤ 57) :
    pyInt l = some (digitsVal l : Int) := by
  have hall : l.all isDigit = true := by
    rw [List.all_eq_true]
    intro c hc
    have := hd c hc
    simp only [isDigit, Bool.and_eq_true, decide_eq_true_eq]
    omega
  cases l with
  | nil => exact absurd rfl hne
  | cons c t =>
    have hc := hd c (List.mem_cons_self c t)
    have hc45 : c ≠ 45 := by omega
    have hc43 : c ≠ 43 := by omega
    unfold pyInt
    split
    · rename_i ds heq
      injection heq with heq
      exact absurd heq hc45
    · rename_i ds heq
      injection heq with heq
      exact absurd heq hc43
    · rw [if_pos ⟨by simp, hall⟩]

/-- `int(str(n).encode())` is the identity, in the decoder's int branch. -/
theorem pyInt_strOfInt (n : Int) : pyInt (strOfInt n) = some n := by
  cases n with
  | ofNat m =>
    rw [strOfInt]
    rw [pyInt_digits _ (strOfNat_spec m).1 (strOfNat_spec m).2.1]
    rw [digitsVal_strOfNat]
    rfl
  | negSucc m =>
    rw [strOfInt]
    show pyInt (45 :: strOfNat (m + 1)) = _
    have hne := (strOfNat_spec (m + 1)).1
    have hall : (strOfNat (m + 1)).all isDigit = true := by
      rw [List.all_eq_true]
      intro c hc
      have := (strOfNat_spec (m + 1)).2.1 c hc
      simp only [isDigit, Bool.and_eq_true, decide_eq_true_eq]
      omega
    rw [pyInt]
    rw [if_pos ⟨hne, hall⟩, digitsVal_strOfNat]
    have hneg : (-(↑(m + 1) : Int)) = Int.negSucc m := by
      rw [Int.negSucc_eq]
      push_cast
      ring
    rw [hneg]

/-- Mapping a pair function over an attached list. -/
theorem attachMapPair {α β γ : Type} (l : List (α × β)) (f : α × β → γ) :
    l.attach.map (fun kv => f kv.1) = l.map f := by
  rw [List.attach_map_coe]

/-- `takeWhile`/`dropWhile` pass over a prefix that satisfies the
predicate. -/
theorem takeWhile_dropWhile_append (p : Nat → Bool) (l r : Bytes)
    (h : ∀ c ∈ l, p c = true) :
    (l ++ r).takeWhile p = l ++ r.takeWhile p ∧
    (l ++ r).dropWhile p = r.dropWhile p := by
  induction l with
  | nil => simp
  | cons c t ih =>
    have hc := h c (List.mem_cons_self c t)
    have ht := ih (fun d hd => h d (List.mem_cons_of_mem c hd))
    simp only [List.cons_append, List.takeWhile_cons, List.dropWhile_cons, hc]
    simp [ht.1, ht.2]

/-- The bencoding of a list. -/
theorem bencodeEncode_blist (xs : List BVal) :
    bencodeEncode (.blist xs) = 108 :: encList xs ++ [101] := by
  rw [bencodeEncode, encList]
  simp

/-- The bencoding of a dict. -/
theorem bencodeEncode_bdict (kvs : List (Bytes × BVal)) :
    bencodeEncode (.bdict kvs) =
      100 :: encPairs (kvs.insertionSort keyLe) ++ [101] := by
  rw [bencodeEncode]
  exact congrArg (fun z => 100 :: List.flatten z ++ [101])
    (attachMapPair (kvs.insertionSort keyLe)
      (fun kv => encStr kv.1 ++ bencodeEncode kv.2))

/-- The canonical form of a list. -/
theorem canonB_blist (xs : List BVal) :
    canonB (.blist xs) = .blist (xs.map canonB) := by
  rw [canonB]
  simp

/-- The canonical form of a dict. -/
theorem canonB_bdict (kvs : List (Bytes × BVal)) :
    canonB (.bdict kvs) =
      .bdict ((kvs.map (fun kv => (kv.1, canonB kv.2))).insertionSort keyLe) := by
  rw [canonB]
  exact congrArg (fun z => BVal.bdict (z.insertionSort keyLe))
    (attachMapPair kvs (fun kv => (kv.1, canonB kv.2)))

/-- Every bencoding is nonempty and starts with a type tag or a digit —
never with the terminator 101. -/
theorem bencodeEncode_head (v : BVal) :
    ∃ c t, bencodeEncode v = c :: t ∧ c ≠ 101 ∧
      (c = 105 ∨ c = 108 ∨ c = 100 ∨ (48 ≤ c ∧ c ≤ 57)) := by
  cases v with
  | bint n =>
    exact ⟨105, strOfInt n ++ [101], by rw [bencodeEncode]; simp, by omega, Or.inl rfl⟩
  | bstr s =>
    rcases hs : strOfNat s.length with _ | ⟨c, t⟩
    · exact absurd hs (strOfNat_spec s.length).1
    · have hc := (strOfNat_spec s.length).2.1 c (by rw [hs]; exact List.mem_cons_self c t)
      refine ⟨c, t ++ 58 :: s, ?_, by omega, Or.inr (Or.inr (Or.inr hc))⟩
      rw [bencodeEncode, encStr, hs]
      rfl
  | blist xs =>
    exact ⟨108, _, bencodeEncode_blist xs, by omega, Or.inr (Or.inl rfl)⟩
  | bdict kvs =>
    exact ⟨100, _, bencodeEncode_bdict kvs, by omega, Or.inr (Or.inr (Or.inl rfl))⟩

/-- The bencoding of an int. -/
theorem bencodeEncode_bint (n : Int) :
    bencodeEncode (.bint n) = 105 :: (strOfInt n ++ [101]) := by
  rw [bencodeEncode]
  simp

/-- The bencoding of a byte string. -/
theorem bencodeEncode_bstr (s : Bytes) :
    bencodeEncode (.bstr s) = strOfNat s.length ++ 58 :: s := by
  rw [bencodeEncode, encStr]

theorem canonB_bint (n : Int) : canonB (.bint n) = .bint n := by rw [canonB]

theorem canonB_bstr (s : Bytes) : canonB (.bstr s) = .bstr s := by rw [canonB]

theorem nodupKeysB_blist (xs : List BVal) :
    nodupKeysB (.blist xs) = ∀ v ∈ xs, nodupKeysB v := by rw [nodupKeysB]

theorem nodupKeysB_bdict (kvs : List (Bytes × BVal)) :
    nodupKeysB (.bdict kvs) =
      ((kvs.map Prod.fst).Nodup ∧ ∀ kv ∈ kvs, nodupKeysB kv.2) := by
  rw [nodupKeysB]

/-- The fuel bound of a list node. -/
theorem szB_blist (xs : List BVal) : szB (.blist xs) = 1 + szList xs := by
  rw [szB, szList]
  have h := List.attach_map_coe xs szB
  simp only [h]

/-- The fuel bound of a dict node. -/
theorem szB_bdict (kvs : List (Bytes × BVal)) :
    szB (.bdict kvs) = 1 + szPairs kvs := by
  rw [szB, szPairs]
  have h := attachMapPair kvs (fun kv => 1 + szB kv.2)
  simp only [h]

/-- Every fuel bound is positive. -/
theorem szB_pos (v : BVal) : 1 ≤ szB v := by
  cases v with
  | bint n => rw [szB]
  | bstr s => rw [szB]
  | blist xs => rw [szB_blist]; omega
  | bdict kvs => rw [szB_bdict]; omega

theorem szList_pos (xs : List BVal) : 1 ≤ szList xs := by
  rw [szList]; omega

theorem szPairs_pos (l : List (Bytes × BVal)) : 1 ≤ szPairs l := by
  rw [szPairs]; omega

/-- Fuel bounds are permutation-invariant. -/
theorem szPairs_perm (l l' : List (Bytes × BVal)) (h : l.Perm l') :
    szPairs l = szPairs l' := by
  rw [szPairs, szPairs]
  rw [(h.map (fun kv => 1 + szB kv.2)).sum_eq]

/-- Setting a fresh key appends. -/
theorem assocSet_fresh {β : Type} (k : Bytes) (v : β) (l : List (Bytes × β))
    (h : k ∉ l.map Prod.fst) : assocSet k v l = l ++ [(k, v)] := by
  induction l with
  | nil => rfl
  | cons p t ih =>
    obtain ⟨k', v'⟩ := p
    simp only [List.map_cons, List.mem_cons] at h
    push_neg at h
    rw [assocSet, if_neg (by simpa using h.1.symm)]
    rw [ih h.2]
    rfl

theorem encList_nil : encList [] = [] := rfl

theorem encList_cons (v : BVal) (t : List BVal) :
    encList (v :: t) = bencodeEncode v ++ encList t := by
  rw [encList, encList, List.map_cons, List.flatten_cons]

theorem encPairs_nil : encPairs [] = [] := rfl

theorem encPairs_cons (kv : Bytes × BVal) (t : List (Bytes × BVal)) :
    encPairs (kv :: t) = encStr kv.1 ++ bencodeEncode kv.2 ++ encPairs t := by
  rw [encPairs, encPairs, List.map_cons, List.flatten_cons, List.append_assoc]

theorem szList_cons (v : BVal) (t : List BVal) :
    szList (v :: t) = szB v + szList t := by
  rw [szList, szList, List.map_cons, List.sum_cons]
  omega

theorem szPairs_cons (kv : Bytes × BVal) (t : List (Bytes × BVal)) :
    szPairs (kv :: t) = 1 + szB kv.2 + szPairs t := by
  rw [szPairs, szPairs, List.map_cons, List.sum_cons]
  omega

/-- Bytes of an int literal: a minus sign or digits. -/
theorem strOfInt_chars (n : Int) :
    ∀ c ∈ strOfInt n, c = 45 ∨ (48 ≤ c ∧ c ≤ 57) := by
  cases n with
  | ofNat m =>
    intro c hc
    exact Or.inr ((strOfNat_spec m).2.1 c hc)
  | negSucc m =>
    intro c hc
    rw [strOfInt, List.mem_cons] at hc
    rcases hc with h | h
    · exact Or.inl h
    · exact Or.inr ((strOfNat_spec (m + 1)).2.1 c h)

/-- A byte string's encoding is its own encoding as a value. -/
theorem bencodeEncode_bstr' (s : Bytes) : bencodeEncode (.bstr s) = encStr s := by
  rw [bencodeEncode]

theorem nodupKeysB_bstr (s : Bytes) : nodupKeysB (.bstr s) := by
  rw [nodupKeysB]
  trivial

theorem szB_bstr (s : Bytes) : szB (.bstr s) = 1 := by rw [szB]

theorem canonB_fst (kv : Bytes × BVal) : ((kv.1, canonB kv.2) : Bytes × BVal).1 = kv.1 := rfl

/-! ### C9: bencode round-trip -/

/-- Joint correctness of the three decoder loops on encoder output, by
induction on the decoder's fuel: with enough fuel, decoding the encoding of
a value (with duplicate-free dict keys) consumes exactly the encoding and
yields the canonical form. -/
theorem bencode_decode_correct : ∀ fuel : Nat,
    (∀ (v : BVal) (rest : Bytes), nodupKeysB v → szB v ≤ fuel →
      bencodeDecodeRec fuel (bencodeEncode v ++ rest) = some (canonB v, rest)) ∧
    (∀ (xs : List BVal) (acc : List BVal) (rest : Bytes),
      (∀ v ∈ xs, nodupKeysB v) → szList xs ≤ fuel →
      bencodeDecodeList fuel (encList xs ++ 101 :: rest) acc =
        some (acc ++ xs.map canonB, rest)) ∧
    (∀ (l acc : List (Bytes × BVal)) (rest : Bytes),
      (∀ kv ∈ l, nodupKeysB kv.2) → (l.map Prod.fst).Nodup →
      (∀ kv ∈ l, kv.1 ∉ acc.map Prod.fst) → szPairs l ≤ fuel →
      bencodeDecodeDict fuel (encPairs l ++ 101 :: rest) acc =
        some (acc ++ l.map (fun kv => (kv.1, canonB kv.2)), rest)) := by
  intro fuel
  induction fuel with
  | zero =>
    refine ⟨?_, ?_, ?_⟩
    · intro v rest _ hsz
      have := szB_pos v
      omega
    · intro xs acc rest _ hsz
      have := szList_pos xs
      omega
    · intro l acc rest _ _ _ hsz
      have := szPairs_pos l
      omega
  | succ fuel ih =>
    obtain ⟨P, Q, R⟩ := ih
    refine ⟨?_, ?_, ?_⟩
    · intro v rest hnd hsz
      cases v with
      | bint n =>
        rw [bencodeEncode_bint, canonB_bint]
        have hform : (105 :: (strOfInt n ++ [101])) ++ rest =
            105 :: (strOfInt n ++ 101 :: rest) := by simp
        rw [hform, bencodeDecodeRec]
        have hchars : ∀ c ∈ strOfInt n, (fun b => decide ¬(b = 101)) c = true := by
          intro c hc
          rcases strOfInt_chars n c hc with h | h <;> simp <;> omega
        obtain ⟨htake, hdrop⟩ :=
          takeWhile_dropWhile_append (fun b => decide ¬(b = 101))
            (strOfInt n) (101 :: rest) hchars
        dsimp only
        rw [if_pos rfl, htake, hdrop]
        rw [List.takeWhile_cons, List.dropWhile_cons]
        norm_num
        exact pyInt_strOfInt n
      | bstr s =>
        rw [bencodeEncode_bstr, canonB_bstr]
        obtain ⟨hne, hdig, -⟩ := strOfNat_spec s.length
        rcases hsn : strOfNat s.length with - | ⟨c, ds⟩
        · exact absurd hsn hne
        · have hc : 48 ≤ c ∧ c ≤ 57 :=
            hdig c (by rw [hsn]; exact List.mem_cons_self c ds)
          have hform : ((c :: ds) ++ 58 :: s) ++ rest =
              c :: (ds ++ 58 :: (s ++ rest)) := by simp
          rw [hform, bencodeDecodeRec]
          dsimp only
          rw [if_neg (by omega), if_neg (by omega), if_neg (by omega),
            if_pos (show isDigit c = true by
              simp only [isDigit, Bool.and_eq_true, decide_eq_true_eq]; omega)]
          have hchars : ∀ d ∈ strOfNat s.length,
              (fun b => decide ¬(b = 58)) d = true := by
            intro d hd
            have := hdig d hd
            simp
            omega
          obtain ⟨htake, hdrop⟩ :=
            takeWhile_dropWhile_append (fun b => decide ¬(b = 58))
              (strOfNat s.length) (58 :: (s ++ rest)) hchars
          have hback : c :: (ds ++ 58 :: (s ++ rest)) =
              strOfNat s.length ++ 58 :: (s ++ rest) := by rw [hsn]; rfl
          rw [hback, htake, hdrop]
          rw [List.takeWhile_cons, List.dropWhile_cons]
          norm_num
          have hpy : pyInt (strOfNat s.length) = some (s.length : Int) :=
            pyInt_strOfInt (s.length : Int)
          rw [hpy]
          simp [Int.toNat_ofNat, List.take_left, List.drop_left]
      | blist xs =>
        rw [bencodeEncode_blist, canonB_blist]
        rw [nodupKeysB_blist] at hnd
        rw [szB_blist] at hsz
        have hform : (108 :: encList xs ++ [101]) ++ rest =
            108 :: (encList xs ++ 101 :: rest) := by simp
        rw [hform, bencodeDecodeRec]
        dsimp only
        rw [if_neg (by omega), if_pos rfl]
        rw [Q xs [] rest hnd (by have := szList_pos xs; omega)]
        simp
      | bdict kvs =>
        rw [bencodeEncode_bdict, canonB_bdict]
        rw [nodupKeysB_bdict] at hnd
        obtain ⟨hkeys, hvals⟩ := hnd
        rw [szB_bdict] at hsz
        have hperm := List.perm_insertionSort keyLe kvs
        have hform : (100 :: encPairs (kvs.insertionSort keyLe) ++ [101]) ++ rest =
            100 :: (encPairs (kvs.insertionSort keyLe) ++ 101 :: rest) := by simp
        rw [hform, bencodeDecodeRec]
        dsimp only
        rw [if_neg (by omega), if_neg (by omega), if_pos rfl]
        rw [R (kvs.insertionSort keyLe) [] rest
          (fun kv hkv => hvals kv ((List.mem_insertionSort keyLe).mp hkv))
          ((hperm.map Prod.fst).nodup_iff.mpr hkeys)
          (by simp)
          (by rw [szPairs_perm _ _ hperm]; omega)]
        have hmap := List.map_insertionSort keyLe keyLe
          (fun kv : Bytes × BVal => (kv.1, canonB kv.2)) kvs (fun a _ b _ => Iff.rfl)
        simp only [List.nil_append, hmap]
        rfl
    · intro xs acc rest hnd hsz
      cases xs with
      | nil =>
        rw [encList_nil, List.nil_append, bencodeDecodeList]
        simp
      | cons v t =>
        rw [encList_cons]
        obtain ⟨c, tt, hv, hc101, -⟩ := bencodeEncode_head v
        have hform : (bencodeEncode v ++ encList t) ++ 101 :: rest =
            c :: (tt ++ (encList t ++ 101 :: rest)) := by rw [hv]; simp
        rw [hform, bencodeDecodeList]
        · have hback : c :: (tt ++ (encList t ++ 101 :: rest)) =
              bencodeEncode v ++ (encList t ++ 101 :: rest) := by rw [hv]; rfl
          rw [hback]
          rw [P v (encList t ++ 101 :: rest) (hnd v (List.mem_cons_self v t))
            (by rw [szList_cons] at hsz; have := szList_pos t; omega)]
          dsimp only
          rw [Q t (acc ++ [canonB v]) rest
            (fun w hw => hnd w (List.mem_cons_of_mem v hw))
            (by rw [szList_cons] at hsz; have := szB_pos v; omega)]
          simp
        · intro r hr
          injection hr with h1 h2
          exact hc101 h1
    · intro l acc rest hvals hkeys hfresh hsz
      cases l with
      | nil =>
        rw [encPairs_nil, List.nil_append, bencodeDecodeDict]
        simp
      | cons kv t =>
        obtain ⟨k, v⟩ := kv
        rw [encPairs_cons]
        obtain ⟨c, tt, hv, hc101, -⟩ := bencodeEncode_head (.bstr k)
        rw [bencodeEncode_bstr'] at hv
        have hform : ((encStr k ++ bencodeEncode v) ++ encPairs t) ++ 101 :: rest =
            c :: (tt ++ (bencodeEncode v ++ (encPairs t ++ 101 :: rest))) := by
          rw [hv]; simp
        rw [hform, bencodeDecodeDict]
        · have hback : c :: (tt ++ (bencodeEncode v ++ (encPairs t ++ 101 :: rest))) =
              bencodeEncode (.bstr k) ++ (bencodeEncode v ++ (encPairs t ++ 101 :: rest)) := by
            rw [bencodeEncode_bstr', hv]; rfl
          rw [hback]
          rw [P (.bstr k) (bencodeEncode v ++ (encPairs t ++ 101 :: rest))
            (nodupKeysB_bstr k)
            (by simp only [szPairs_cons] at hsz
                have h1 := szB_pos v
                have h2 := szPairs_pos t
                rw [szB_bstr]
                omega)]
          rw [canonB_bstr]
          dsimp only
          rw [P v (encPairs t ++ 101 :: rest)
            (hvals (k, v) (List.mem_cons_self (k, v) t))
            (by simp only [szPairs_cons] at hsz
                have h2 := szPairs_pos t
                omega)]
          dsimp only
          rw [assocSet_fresh k (canonB v) acc (hfresh (k, v) (List.mem_cons_self (k, v) t))]
          rw [List.map_cons, List.nodup_cons] at hkeys
          rw [R t (acc ++ [(k, canonB v)]) rest
            (fun kw hkw => hvals kw (List.mem_cons_of_mem (k, v) hkw))
            hkeys.2
            (by
              intro kw hkw
              have h1 := hfresh kw (List.mem_cons_of_mem (k, v) hkw)
              have h2 : kw.1 ∈ List.map Prod.fst t := List.mem_map_of_mem Prod.fst hkw
              simp only [List.map_append, List.mem_append, List.map_cons, List.map_nil,
                List.mem_singleton]
              rintro (h | h)
              · exact h1 h
              · rw [h] at h2
                exact hkeys.1 h2)
            (by simp only [szPairs_cons] at hsz
                have := szB_pos v
                omega)]
          simp
        · intro r hr
          injection hr with h1 h2
          exact hc101 h1

theorem szB_le_length (v : BVal) : szB v ≤ (bencodeEncode v).length := by
  suffices h : ∀ (N : Nat) (w : BVal), sizeOf w = N → szB w ≤ (bencodeEncode w).length from
    h (sizeOf v) v rfl
  intro N
  induction N using Nat.strong_induction_on with
  | _ N ih =>
    intro w hw
    cases w with
    | bint n =>
      rw [szB, bencodeEncode_bint]
      simp
    | bstr s =>
      rw [szB_bstr, bencodeEncode_bstr, List.length_append, List.length_cons]
      omega
    | blist xs =>
      have hx : ∀ x ∈ xs, szB x ≤ (bencodeEncode x).length := by
        intro x hxs
        have hlt : sizeOf x < N := by
          have := List.sizeOf_lt_sizeOf_of_mem hxs
          subst hw
          simp only [BVal.blist.sizeOf_spec]
          omega
        exact ih (sizeOf x) hlt x rfl
      rw [szB_blist, szList, bencodeEncode_blist, encList]
      have hsum : (xs.map szB).sum ≤ (xs.map (fun x => (bencodeEncode x).length)).sum :=
        List.sum_le_sum hx
      have hlen : ((xs.map bencodeEncode).flatten).length
          = (xs.map (fun x => (bencodeEncode x).length)).sum := by
        rw [List.length_flatten, List.map_map]
        rfl
      simp only [List.length_cons, List.length_append, List.length_nil]
      omega
    | bdict kvs =>
      have hx : ∀ kv ∈ kvs.insertionSort keyLe, szB kv.2 ≤ (bencodeEncode kv.2).length := by
        intro kv hkv
        have hm : kv ∈ kvs := (List.mem_insertionSort keyLe).mp hkv
        have hlt : sizeOf kv.2 < N := by
          have h1 := List.sizeOf_lt_sizeOf_of_mem hm
          obtain ⟨a, b⟩ := kv
          subst hw
          simp only [Prod.mk.sizeOf_spec, BVal.bdict.sizeOf_spec] at h1 ⊢
          omega
        exact ih (sizeOf kv.2) hlt kv.2 rfl
      rw [szB_bdict, bencodeEncode_bdict]
      rw [szPairs_perm kvs (kvs.insertionSort keyLe)
        (List.perm_insertionSort keyLe kvs).symm]
      rw [szPairs, encPairs]
      have hsum : ((kvs.insertionSort keyLe).map (fun kv => 1 + szB kv.2)).sum ≤
          ((kvs.insertionSort keyLe).map
            (fun kv => (encStr kv.1 ++ bencodeEncode kv.2).length)).sum := by
        apply List.sum_le_sum
        intro kv hkv
        rw [List.length_append]
        have h1 := hx kv hkv
        have h2 : 1 ≤ (encStr kv.1).length := by
          rw [encStr, List.length_append, List.length_cons]
          omega
        omega
      have hlen : (((kvs.insertionSort keyLe).map
            (fun kv => encStr kv.1 ++ bencodeEncode kv.2)).flatten).length
          = ((kvs.insertionSort keyLe).map
            (fun kv => (encStr kv.1 ++ bencodeEncode kv.2).length)).sum := by
        rw [List.length_flatten, List.map_map]
        rfl
      simp only [List.length_cons, List.length_append, List.length_nil]
      omega

theorem nodupKeysB_bint (n : Int) : nodupKeysB (.bint n) := by
  rw [nodupKeysB]
  trivial

/-- In a duplicate-free association list, lookup finds the member. -/
theorem assocFind_of_mem_nodup {β : Type} (k : Bytes) (v : β) (l : List (Bytes × β))
    (hm : (k, v) ∈ l) (hnd : (l.map Prod.fst).Nodup) : assocFind k l = some v := by
  induction l with
  | nil => cases hm
  | cons p t ih =>
    obtain ⟨k', v'⟩ := p
    rw [List.map_cons, List.nodup_cons] at hnd
    rw [List.mem_cons] at hm
    rcases hm with h | h
    · injection h with h1 h2
      subst h1
      subst h2
      rw [assocFind, List.find?_cons_of_pos _ (by simp)]
      rfl
    · by_cases hk : k' = k
      · exfalso
        apply hnd.1
        rw [hk]
        exact List.mem_map.mpr ⟨(k, v), h, rfl⟩
      · rw [assocFind, List.find?_cons_of_neg _ (by simp [hk])]
        exact ih h hnd.2

/-- The dict-inclusion loop succeeds when every key of the iterated list maps
to an equal value. -/
theorem pyEqDictB_of_forall (b : List (Bytes × BVal)) (l : List (Bytes × BVal))
    (h : ∀ kv ∈ l, ∃ w, assocFind kv.1 b = some w ∧ pyEqB kv.2 w = true) :
    pyEqDictB b l = true := by
  induction l with
  | nil => rw [pyEqDictB]
  | cons kv t ih =>
    obtain ⟨k, v⟩ := kv
    obtain ⟨w, hw, hpe⟩ := h (k, v) (List.mem_cons_self (k, v) t)
    rw [pyEqDictB, hw]
    dsimp only
    rw [hpe, ih (fun kw hkw => h kw (List.mem_cons_of_mem (k, v) hkw))]
    rfl

/-- Python `==` between the canonical (dict-sorted) form of a value and the
value itself, for values with duplicate-free dict keys. -/
theorem pyEqB_canonB (v : BVal) (hv : nodupKeysB v) : pyEqB (canonB v) v = true := by
  suffices h : ∀ (N : Nat) (w : BVal), sizeOf w = N → nodupKeysB w →
      pyEqB (canonB w) w = true from h (sizeOf v) v rfl hv
  intro N
  induction N using Nat.strong_induction_on with
  | _ N ih =>
    intro w hw hnd
    cases w with
    | bint n =>
      rw [canonB_bint, pyEqB]
      simp
    | bstr s =>
      rw [canonB_bstr, pyEqB]
      simp
    | blist xs =>
      rw [canonB_blist, pyEqB]
      rw [nodupKeysB_blist] at hnd
      have hx : ∀ x ∈ xs, pyEqB (canonB x) x = true := by
        intro x hxs
        have hlt : sizeOf x < N := by
          have := List.sizeOf_lt_sizeOf_of_mem hxs
          subst hw
          simp only [BVal.blist.sizeOf_spec]
          omega
        exact ih (sizeOf x) hlt x rfl (hnd x hxs)
      have key : ∀ ys : List BVal, (∀ x ∈ ys, pyEqB (canonB x) x = true) →
          pyEqListB (ys.map canonB) ys = true := by
        intro ys
        induction ys with
        | nil =>
          intro hys
          rw [List.map_nil, pyEqListB]
        | cons x t iht =>
          intro hys
          rw [List.map_cons, pyEqListB, hys x (List.mem_cons_self x t),
            iht (fun y hy => hys y (List.mem_cons_of_mem x hy))]
          rfl
      exact key xs hx
    | bdict kvs =>
      rw [canonB_bdict, pyEqB]
      rw [nodupKeysB_bdict] at hnd
      have hlen : ((kvs.map (fun kv => (kv.1, canonB kv.2))).insertionSort keyLe).length
          = kvs.length := by
        rw [List.length_insertionSort, List.length_map]
      have hdict : pyEqDictB kvs
          ((kvs.map (fun kv => (kv.1, canonB kv.2))).insertionSort keyLe) = true := by
        apply pyEqDictB_of_forall
        intro kv hkv
        have hm : kv ∈ kvs.map (fun kv => (kv.1, canonB kv.2)) :=
          (List.mem_insertionSort keyLe).mp hkv
        obtain ⟨p, hp, hpe⟩ := List.mem_map.mp hm
        obtain ⟨pk, pv⟩ := p
        subst hpe
        refine ⟨pv, ?_, ?_⟩
        · exact assocFind_of_mem_nodup pk pv kvs hp hnd.1
        · have hlt : sizeOf pv < N := by
            have h1 := List.sizeOf_lt_sizeOf_of_mem hp
            subst hw
            simp only [Prod.mk.sizeOf_spec, BVal.bdict.sizeOf_spec] at h1 ⊢
            omega
          exact ih (sizeOf pv) hlt pv rfl (hnd.2 (pk, pv) hp)
      rw [hlen, hdict]
      simp

/-- C9: for every value constructible by the bencode encoder (ints, byte
strings, lists and dicts, nested arbitrarily; dict keys duplicate-free, as
in any value built from Python dicts), decoding the encoding succeeds,
yields the canonical (dict-sorted) form, and that result is `==`-equal to
the original value in Python's sense. -/
theorem bencode_roundtrip (v : BVal) (hnd : nodupKeysB v) :
    bencodeDecode (bencodeEncode v) = some (canonB v) ∧
    pyEqB (canonB v) v = true := by
  constructor
  · have h := (bencode_decode_correct ((bencodeEncode v).length + 1)).1 v []
      hnd (by have := szB_le_length v; omega)
    rw [List.append_nil] at h
    rw [bencodeDecode, h]
    rfl
  · exact pyEqB_canonB v hnd

theorem bencode_roundtrip_witness :
    nodupKeysB (BVal.bdict [([98], .bint (-7)), ([97], .blist [.bstr [120], .bint 3])]) ∧
    (bencodeDecode (bencodeEncode
        (BVal.bdict [([98], .bint (-7)), ([97], .blist [.bstr [120], .bint 3])])) =
      some (canonB (BVal.bdict [([98], .bint (-7)), ([97], .blist [.bstr [120], .bint 3])])) ∧
    pyEqB (canonB (BVal.bdict [([98], .bint (-7)), ([97], .blist [.bstr [120], .bint 3])]))
      (BVal.bdict [([98], .bint (-7)), ([97], .blist [.bstr [120], .bint 3])]) = true) := by
  have hnd : nodupKeysB
      (BVal.bdict [([98], .bint (-7)), ([97], .blist [.bstr [120], .bint 3])]) := by
    rw [nodupKeysB_bdict]
    constructor
    · decide
    · intro kv hkv
      simp only [List.mem_cons, List.not_mem_nil, or_false] at hkv
      rcases hkv with h | h
      · rw [h]
        exact nodupKeysB_bint (-7)
      · rw [h]
        show nodupKeysB (.blist [.bstr [120], .bint 3])
        rw [nodupKeysB_blist]
        intro w hw
        simp only [List.mem_cons, List.not_mem_nil, or_false] at hw
        rcases hw with h1 | h1
        · rw [h1]
          exact nodupKeysB_bstr [120]
        · rw [h1]
          exact nodupKeysB_bint 3
  exact ⟨hnd, bencode_roundtrip
    (BVal.bdict [([98], .bint (-7)), ([97], .blist [.bstr [120], .bint 3])]) hnd⟩

/-! ### C3, C4, C5: contribution proofs and the JSON round trip -/

theorem skipWs_cons_of (c : Nat) (l : Bytes) (h : isWs c = false) :
    skipWs (c :: l) = c :: l := by
  rw [skipWs, List.dropWhile_cons, h]
  rfl

theorem skipWs_space (l : Bytes) : skipWs (32 :: l) = skipWs l := by
  rw [skipWs, List.dropWhile_cons]
  rfl

theorem scanStr_plain (s r : Bytes) (h : jplain s) :
    scanStr (s ++ 34 :: r) = some (s, r) := by
  induction s with
  | nil =>
    rw [List.nil_append, scanStr, if_pos rfl]
  | cons c t ih =>
    obtain ⟨h1, h2, h3⟩ := h c (List.mem_cons_self c t)
    rw [List.cons_append, scanStr, if_neg h2,
      if_neg (by simp only [Bool.or_eq_true, decide_eq_true_eq]; omega)]
    rw [ih (fun d hd => h d (List.mem_cons_of_mem c hd))]
    rfl

/-- A multi-digit decimal never starts with a zero. -/
theorem strOfNat_leading (n : Nat) (h : (strOfNat n).headI = 48) :
    strOfNat n = [48] := by
  induction n using Nat.strong_induction_on with
  | _ n ih =>
    by_cases h10 : n < 10
    · have heq : strOfNat n = [n + 48] := by
        rw [strOfNat, strOfNatFuel, if_pos h10]
      rw [heq] at h ⊢
      simp only [List.headI_cons] at h
      have hn0 : n = 0 := by omega
      subst hn0
      rfl
    · exfalso
      have hlt : n / 10 < n := Nat.div_lt_self (by omega) (by omega)
      have hrec : strOfNat n = strOfNat (n / 10) ++ [n % 10 + 48] := by
        rw [strOfNat, strOfNatFuel, if_neg h10, strOfNatFuel_eq n (n / 10) hlt]
      have hne := (strOfNat_spec (n / 10)).1
      rcases hq : strOfNat (n / 10) with - | ⟨c, ds⟩
      · exact hne hq
      · rw [hrec, hq] at h
        simp only [List.cons_append, List.headI_cons] at h
        have h48 : strOfNat (n / 10) = [48] :=
          ih (n / 10) hlt (by rw [hq, List.headI_cons]; exact h)
        have hval := digitsVal_strOfNat (n / 10)
        rw [h48] at hval
        have h0 : digitsVal [48] = 0 := by decide
        omega

/-- Scanning a serialized natural followed by a non-digit. -/
theorem scanNat_strOfNat (n d : Nat) (rs : Bytes) (hd : isDigit d = false) :
    scanNat (strOfNat n ++ d :: rs) = some (n, d :: rs) := by
  obtain ⟨hne, hdig, -⟩ := strOfNat_spec n
  obtain ⟨htake, hdrop⟩ := takeWhile_dropWhile_append isDigit (strOfNat n) (d :: rs)
    (fun c hc => by
      have := hdig c hc
      simp only [isDigit, Bool.and_eq_true, decide_eq_true_eq]
      omega)
  rw [scanNat]
  simp only [htake, hdrop, List.takeWhile_cons, hd]
  simp only [Bool.false_eq_true, if_false, List.append_nil, List.dropWhile_cons, hd]
  rw [if_neg hne, if_neg (by
    rintro ⟨ha, hb⟩
    rw [strOfNat_leading n ha] at hb
    simp at hb)]
  rw [digitsVal_strOfNat]

/-- `skipWs` does not touch a digit-headed tail. -/
theorem skipWs_strOfNat (n : Nat) (r : Bytes) :
    skipWs (strOfNat n ++ r) = strOfNat n ++ r := by
  obtain ⟨hne, hdig, -⟩ := strOfNat_spec n
  rcases hsn : strOfNat n with - | ⟨c, ds⟩
  · exact absurd hsn hne
  have hc : 48 ≤ c ∧ c ≤ 57 := hdig c (by rw [hsn]; exact List.mem_cons_self c ds)
  rw [List.cons_append, skipWs_cons_of]
  simp only [isWs, Bool.or_eq_true, decide_eq_true_eq]
  simp only [Bool.or_eq_false_iff, decide_eq_false_iff_not]
  omega

/-- Parsing a serialized plain string. -/
theorem parseJVal_str (fuel : Nat) (input s r : Bytes)
    (hskip : skipWs input = 34 :: (s ++ 34 :: r)) (hs : jplain s) :
    parseJVal (fuel + 1) input = some (.jstr s, r) := by
  rw [parseJVal, hskip]
  dsimp only
  rw [if_neg (by omega), if_neg (by omega), if_neg (by omega), if_pos rfl]
  rw [scanStr_plain s r hs]
  rfl

/-- Parsing a serialized natural number value. -/
theorem parseJVal_num (fuel : Nat) (input : Bytes) (n d : Nat) (rs : Bytes)
    (hskip : skipWs input = strOfNat n ++ d :: rs) (hd : isDigit d = false) :
    parseJVal (fuel + 1) input = some (.jnum (n : Int), d :: rs) := by
  obtain ⟨hne, hdig, -⟩ := strOfNat_spec n
  rcases hsn : strOfNat n with - | ⟨c, ds⟩
  · exact absurd hsn hne
  have hc : 48 ≤ c ∧ c ≤ 57 := hdig c (by rw [hsn]; exact List.mem_cons_self c ds)
  rw [parseJVal, hskip, hsn, List.cons_append]
  dsimp only
  rw [if_neg (by omega), if_neg (by omega), if_neg (by omega), if_neg (by omega),
    if_neg (by omega),
    if_pos (show isDigit c = true by
      simp only [isDigit, Bool.and_eq_true, decide_eq_true_eq]; omega)]
  rw [show c :: (ds ++ d :: rs) = strOfNat n ++ d :: rs by rw [hsn, List.cons_append]]
  rw [scanNat_strOfNat n d rs hd]
  rfl

/-- One member of an object, followed by a comma: the loop consumes it and
continues. -/
theorem parseJObjItems_cont (fuel : Nat) (input k : Bytes) (v : JVal)
    (tail : Bytes) (acc : List (Bytes × JVal))
    (hskip : skipWs input = 34 :: (k ++ 34 :: 58 :: 32 :: (dumps v ++ 44 :: 32 :: tail)))
    (hk : jplain k)
    (hv : parseJVal fuel (32 :: (dumps v ++ 44 :: 32 :: tail)) =
      some (v, 44 :: 32 :: tail)) :
    parseJObjItems (fuel + 1) input acc =
      parseJObjItems fuel (32 :: tail) (acc ++ [(k, v)]) := by
  rw [parseJObjItems, hskip]
  dsimp only
  rw [scanStr_plain k (58 :: 32 :: (dumps v ++ 44 :: 32 :: tail)) hk]
  dsimp only
  rw [show skipWs (58 :: 32 :: (dumps v ++ 44 :: 32 :: tail)) =
      58 :: 32 :: (dumps v ++ 44 :: 32 :: tail) from skipWs_cons_of 58 _ (by decide)]
  dsimp only
  rw [hv]
  dsimp only
  rw [show skipWs (44 :: 32 :: tail) = 44 :: 32 :: tail from
    skipWs_cons_of 44 _ (by decide)]

/-- The last member of an object, followed by the closing brace. -/
theorem parseJObjItems_last (fuel : Nat) (input k : Bytes) (v : JVal)
    (tail : Bytes) (acc : List (Bytes × JVal))
    (hskip : skipWs input = 34 :: (k ++ 34 :: 58 :: 32 :: (dumps v ++ 125 :: tail)))
    (hk : jplain k)
    (hv : parseJVal fuel (32 :: (dumps v ++ 125 :: tail)) = some (v, 125 :: tail)) :
    parseJObjItems (fuel + 1) input acc = some (.jobj (acc ++ [(k, v)]), tail) := by
  rw [parseJObjItems, hskip]
  dsimp only
  rw [scanStr_plain k (58 :: 32 :: (dumps v ++ 125 :: tail)) hk]
  dsimp only
  rw [show skipWs (58 :: 32 :: (dumps v ++ 125 :: tail)) =
      58 :: 32 :: (dumps v ++ 125 :: tail) from skipWs_cons_of 58 _ (by decide)]
  dsimp only
  rw [hv]
  dsimp only
  rw [show skipWs (125 :: tail) = 125 :: tail from skipWs_cons_of 125 _ (by decide)]

theorem dumps_jstr (s : Bytes) : dumps (.jstr s) = 34 :: s ++ [34] := by
  rw [dumps]

theorem dumps_jnum_nat (n : Nat) : dumps (.jnum (n : Int)) = strOfNat n := by
  rw [dumps]
  rfl

theorem dumps_jobj (kvs : List (Bytes × JVal)) :
    dumps (.jobj kvs) = 123 :: (List.intercalate [44, 32]
      (kvs.map (fun kv => 34 :: kv.1 ++ [34, 58, 32] ++ dumps kv.2))) ++ [125] := by
  rw [dumps]
  exact congrArg (fun z => 123 :: List.intercalate [44, 32] z ++ [125])
    (attachMapPair kvs (fun kv => 34 :: kv.1 ++ [34, 58, 32] ++ dumps kv.2))

/-- The serialized payload object, in the nested shape the parser lemmas
consume. -/
theorem dumps_payload (s1 s2 : Bytes) (n1 n2 n3 : Nat) :
    dumps (JVal.jobj [(bs "nonce", .jstr s1), (bs "peer_id_hash", .jstr s2),
      (bs "timestamp", .jnum (n1 : Int)), (bs "traceroutes", .jnum (n2 : Int)),
      (bs "uptime_hours", .jnum (n3 : Int))]) =
    123 :: (34 :: (bs "nonce" ++ 34 :: 58 :: 32 :: (dumps (JVal.jstr s1) ++ 44 :: 32 :: (34 :: (bs "peer_id_hash" ++ 34 :: 58 :: 32 :: (dumps (JVal.jstr s2) ++ 44 :: 32 :: (34 :: (bs "timestamp" ++ 34 :: 58 :: 32 :: (dumps (JVal.jnum (n1 : Int)) ++ 44 :: 32 :: (34 :: (bs "traceroutes" ++ 34 :: 58 :: 32 :: (dumps (JVal.jnum (n2 : Int)) ++ 44 :: 32 :: (34 :: (bs "uptime_hours" ++ 34 :: 58 :: 32 :: (dumps (JVal.jnum (n3 : Int)) ++ [125]))))))))))))))) := by
  rw [dumps_jobj]
  simp [List.intercalate, List.intersperse, List.append_assoc]

/-- The recursive-descent parser recovers the payload object from its
serialization, for any sufficient fuel. -/
theorem parseJVal_payload (g : Nat) (s1 s2 : Bytes) (n1 n2 n3 : Nat)
    (h1 : jplain s1) (h2 : jplain s2) :
    parseJVal (g + 7) (dumps (JVal.jobj [(bs "nonce", .jstr s1), (bs "peer_id_hash", .jstr s2),
      (bs "timestamp", .jnum (n1 : Int)), (bs "traceroutes", .jnum (n2 : Int)),
      (bs "uptime_hours", .jnum (n3 : Int))])) =
      some (JVal.jobj [(bs "nonce", .jstr s1), (bs "peer_id_hash", .jstr s2),
      (bs "timestamp", .jnum (n1 : Int)), (bs "traceroutes", .jnum (n2 : Int)),
      (bs "uptime_hours", .jnum (n3 : Int))], ([] : Bytes)) := by
  rw [dumps_payload]
  have hv1 : parseJVal (g + 5) (32 :: (dumps (JVal.jstr s1) ++ 44 :: 32 :: (34 :: (bs "peer_id_hash" ++ 34 :: 58 :: 32 :: (dumps (JVal.jstr s2) ++ 44 :: 32 :: (34 :: (bs "timestamp" ++ 34 :: 58 :: 32 :: (dumps (JVal.jnum (n1 : Int)) ++ 44 :: 32 :: (34 :: (bs "traceroutes" ++ 34 :: 58 :: 32 :: (dumps (JVal.jnum (n2 : Int)) ++ 44 :: 32 :: (34 :: (bs "uptime_hours" ++ 34 :: 58 :: 32 :: (dumps (JVal.jnum (n3 : Int)) ++ [125])))))))))))))) = some (JVal.jstr s1, 44 :: 32 :: (34 :: (bs "peer_id_hash" ++ 34 :: 58 :: 32 :: (dumps (JVal.jstr s2) ++ 44 :: 32 :: (34 :: (bs "timestamp" ++ 34 :: 58 :: 32 :: (dumps (JVal.jnum (n1 : Int)) ++ 44 :: 32 :: (34 :: (bs "traceroutes" ++ 34 :: 58 :: 32 :: (dumps (JVal.jnum (n2 : Int)) ++ 44 :: 32 :: (34 :: (bs "uptime_hours" ++ 34 :: 58 :: 32 :: (dumps (JVal.jnum (n3 : Int)) ++ [125]))))))))))))) := by
    apply parseJVal_str (g + 4)
    · rw [dumps_jstr, skipWs_space,
        show (34 :: s1 ++ [34]) ++ 44 :: 32 :: (34 :: (bs "peer_id_hash" ++ 34 :: 58 :: 32 :: (dumps (JVal.jstr s2) ++ 44 :: 32 :: (34 :: (bs "timestamp" ++ 34 :: 58 :: 32 :: (dumps (JVal.jnum (n1 : Int)) ++ 44 :: 32 :: (34 :: (bs "traceroutes" ++ 34 :: 58 :: 32 :: (dumps (JVal.jnum (n2 : Int)) ++ 44 :: 32 :: (34 :: (bs "uptime_hours" ++ 34 :: 58 :: 32 :: (dumps (JVal.jnum (n3 : Int)) ++ [125])))))))))))) =
          34 :: (s1 ++ 34 :: (44 :: 32 :: (34 :: (bs "peer_id_hash" ++ 34 :: 58 :: 32 :: (dumps (JVal.jstr s2) ++ 44 :: 32 :: (34 :: (bs "timestamp" ++ 34 :: 58 :: 32 :: (dumps (JVal.jnum (n1 : Int)) ++ 44 :: 32 :: (34 :: (bs "traceroutes" ++ 34 :: 58 :: 32 :: (dumps (JVal.jnum (n2 : Int)) ++ 44 :: 32 :: (34 :: (bs "uptime_hours" ++ 34 :: 58 :: 32 :: (dumps (JVal.jnum (n3 : Int)) ++ [125])))))))))))))) by simp]
      exact skipWs_cons_of 34 _ (by decide)
    · exact h1
  have hv2 : parseJVal (g + 4) (32 :: (dumps (JVal.jstr s2) ++ 44 :: 32 :: (34 :: (bs "timestamp" ++ 34 :: 58 :: 32 :: (dumps (JVal.jnum (n1 : Int)) ++ 44 :: 32 :: (34 :: (bs "traceroutes" ++ 34 :: 58 :: 32 :: (dumps (JVal.jnum (n2 : Int)) ++ 44 :: 32 :: (34 :: (bs "uptime_hours" ++ 34 :: 58 :: 32 :: (dumps (JVal.jnum (n3 : Int)) ++ [125]))))))))))) = some (JVal.jstr s2, 44 :: 32 :: (34 :: (bs "timestamp" ++ 34 :: 58 :: 32 :: (dumps (JVal.jnum (n1 : Int)) ++ 44 :: 32 :: (34 :: (bs "traceroutes" ++ 34 :: 58 :: 32 :: (dumps (JVal.jnum (n2 : Int)) ++ 44 :: 32 :: (34 :: (bs "uptime_hours" ++ 34 :: 58 :: 32 :: (dumps (JVal.jnum (n3 : Int)) ++ [125])))))))))) := by
    apply parseJVal_str (g + 3)
    · rw [dumps_jstr, skipWs_space,
        show (34 :: s2 ++ [34]) ++ 44 :: 32 :: (34 :: (bs "timestamp" ++ 34 :: 58 :: 32 :: (dumps (JVal.jnum (n1 : Int)) ++ 44 :: 32 :: (34 :: (bs "traceroutes" ++ 34 :: 58 :: 32 :: (dumps (JVal.jnum (n2 : Int)) ++ 44 :: 32 :: (34 :: (bs "uptime_hours" ++ 34 :: 58 :: 32 :: (dumps (JVal.jnum (n3 : Int)) ++ [125]))))))))) =
          34 :: (s2 ++ 34 :: (44 :: 32 :: (34 :: (bs "timestamp" ++ 34 :: 58 :: 32 :: (dumps (JVal.jnum (n1 : Int)) ++ 44 :: 32 :: (34 :: (bs "traceroutes" ++ 34 :: 58 :: 32 :: (dumps (JVal.jnum (n2 : Int)) ++ 44 :: 32 :: (34 :: (bs "uptime_hours" ++ 34 :: 58 :: 32 :: (dumps (JVal.jnum (n3 : Int)) ++ [125]))))))))))) by simp]
      exact skipWs_cons_of 34 _ (by decide)
    · exact h2
  have hv3 : parseJVal (g + 3) (32 :: (dumps (JVal.jnum (n1 : Int)) ++ 44 :: 32 :: (34 :: (bs "traceroutes" ++ 34 :: 58 :: 32 :: (dumps (JVal.jnum (n2 : Int)) ++ 44 :: 32 :: (34 :: (bs "uptime_hours" ++ 34 :: 58 :: 32 :: (dumps (JVal.jnum (n3 : Int)) ++ [125])))))))) = some (JVal.jnum (n1 : Int), 44 :: 32 :: (34 :: (bs "traceroutes" ++ 34 :: 58 :: 32 :: (dumps (JVal.jnum (n2 : Int)) ++ 44 :: 32 :: (34 :: (bs "uptime_hours" ++ 34 :: 58 :: 32 :: (dumps (JVal.jnum (n3 : Int)) ++ [125]))))))) := by
    apply parseJVal_num (g + 2) _ n1 44 (32 :: (34 :: (bs "traceroutes" ++ 34 :: 58 :: 32 :: (dumps (JVal.jnum (n2 : Int)) ++ 44 :: 32 :: (34 :: (bs "uptime_hours" ++ 34 :: 58 :: 32 :: (dumps (JVal.jnum (n3 : Int)) ++ [125])))))))
    · rw [dumps_jnum_nat, skipWs_space,
        show strOfNat n1 ++ 44 :: 32 :: (34 :: (bs "traceroutes" ++ 34 :: 58 :: 32 :: (dumps (JVal.jnum (n2 : Int)) ++ 44 :: 32 :: (34 :: (bs "uptime_hours" ++ 34 :: 58 :: 32 :: (dumps (JVal.jnum (n3 : Int)) ++ [125])))))) = strOfNat n1 ++ 44 :: (32 :: (34 :: (bs "traceroutes" ++ 34 :: 58 :: 32 :: (dumps (JVal.jnum (n2 : Int)) ++ 44 :: 32 :: (34 :: (bs "uptime_hours" ++ 34 :: 58 :: 32 :: (dumps (JVal.jnum (n3 : Int)) ++ [125]))))))) by simp]
      exact skipWs_strOfNat n1 _
    · decide
  have hv4 : parseJVal (g + 2) (32 :: (dumps (JVal.jnum (n2 : Int)) ++ 44 :: 32 :: (34 :: (bs "uptime_hours" ++ 34 :: 58 :: 32 :: (dumps (JVal.jnum (n3 : Int)) ++ [125]))))) = some (JVal.jnum (n2 : Int), 44 :: 32 :: (34 :: (bs "uptime_hours" ++ 34 :: 58 :: 32 :: (dumps (JVal.jnum (n3 : Int)) ++ [125])))) := by
    apply parseJVal_num (g + 1) _ n2 44 (32 :: (34 :: (bs "uptime_hours" ++ 34 :: 58 :: 32 :: (dumps (JVal.jnum (n3 : Int)) ++ [125]))))
    · rw [dumps_jnum_nat, skipWs_space,
        show strOfNat n2 ++ 44 :: 32 :: (34 :: (bs "uptime_hours" ++ 34 :: 58 :: 32 :: (dumps (JVal.jnum (n3 : Int)) ++ [125]))) = strOfNat n2 ++ 44 :: (32 :: (34 :: (bs "uptime_hours" ++ 34 :: 58 :: 32 :: (dumps (JVal.jnum (n3 : Int)) ++ [125])))) by simp]
      exact skipWs_strOfNat n2 _
    · decide
  have hv5 : parseJVal (g + 1) (32 :: (dumps (JVal.jnum (n3 : Int)) ++ [125])) = some (JVal.jnum (n3 : Int), [125]) := by
    apply parseJVal_num (g + 0) _ n3 125 ([])
    · rw [dumps_jnum_nat, skipWs_space,
        show strOfNat n3 ++ [125] = strOfNat n3 ++ 125 :: ([]) by simp]
      exact skipWs_strOfNat n3 _
    · decide
  have step1 : parseJObjItems (g + 6) (34 :: (bs "nonce" ++ 34 :: 58 :: 32 :: (dumps (JVal.jstr s1) ++ 44 :: 32 :: (34 :: (bs "peer_id_hash" ++ 34 :: 58 :: 32 :: (dumps (JVal.jstr s2) ++ 44 :: 32 :: (34 :: (bs "timestamp" ++ 34 :: 58 :: 32 :: (dumps (JVal.jnum (n1 : Int)) ++ 44 :: 32 :: (34 :: (bs "traceroutes" ++ 34 :: 58 :: 32 :: (dumps (JVal.jnum (n2 : Int)) ++ 44 :: 32 :: (34 :: (bs "uptime_hours" ++ 34 :: 58 :: 32 :: (dumps (JVal.jnum (n3 : Int)) ++ [125]))))))))))))))) ([] : List (Bytes × JVal)) = parseJObjItems (g + 5) (32 :: (34 :: (bs "peer_id_hash" ++ 34 :: 58 :: 32 :: (dumps (JVal.jstr s2) ++ 44 :: 32 :: (34 :: (bs "timestamp" ++ 34 :: 58 :: 32 :: (dumps (JVal.jnum (n1 : Int)) ++ 44 :: 32 :: (34 :: (bs "traceroutes" ++ 34 :: 58 :: 32 :: (dumps (JVal.jnum (n2 : Int)) ++ 44 :: 32 :: (34 :: (bs "uptime_hours" ++ 34 :: 58 :: 32 :: (dumps (JVal.jnum (n3 : Int)) ++ [125]))))))))))))) [(bs "nonce", JVal.jstr s1)] :=
    parseJObjItems_cont (g + 5) _ _ _ _ _ (skipWs_cons_of 34 _ (by decide)) (by unfold jplain; decide) hv1
  have step2 : parseJObjItems (g + 5) (32 :: (34 :: (bs "peer_id_hash" ++ 34 :: 58 :: 32 :: (dumps (JVal.jstr s2) ++ 44 :: 32 :: (34 :: (bs "timestamp" ++ 34 :: 58 :: 32 :: (dumps (JVal.jnum (n1 : Int)) ++ 44 :: 32 :: (34 :: (bs "traceroutes" ++ 34 :: 58 :: 32 :: (dumps (JVal.jnum (n2 : Int)) ++ 44 :: 32 :: (34 :: (bs "uptime_hours" ++ 34 :: 58 :: 32 :: (dumps (JVal.jnum (n3 : Int)) ++ [125]))))))))))))) [(bs "nonce", JVal.jstr s1)] = parseJObjItems (g + 4) (32 :: (34 :: (bs "timestamp" ++ 34 :: 58 :: 32 :: (dumps (JVal.jnum (n1 : Int)) ++ 44 :: 32 :: (34 :: (bs "traceroutes" ++ 34 :: 58 :: 32 :: (dumps (JVal.jnum (n2 : Int)) ++ 44 :: 32 :: (34 :: (bs "uptime_hours" ++ 34 :: 58 :: 32 :: (dumps (JVal.jnum (n3 : Int)) ++ [125])))))))))) [(bs "nonce", JVal.jstr s1), (bs "peer_id_hash", JVal.jstr s2)] :=
    parseJObjItems_cont (g + 4) _ _ _ _ _ (by
      rw [skipWs_space]
      exact skipWs_cons_of 34 _ (by decide)) (by unfold jplain; decide) hv2
  have step3 : parseJObjItems (g + 4) (32 :: (34 :: (bs "timestamp" ++ 34 :: 58 :: 32 :: (dumps (JVal.jnum (n1 : Int)) ++ 44 :: 32 :: (34 :: (bs "traceroutes" ++ 34 :: 58 :: 32 :: (dumps (JVal.jnum (n2 : Int)) ++ 44 :: 32 :: (34 :: (bs "uptime_hours" ++ 34 :: 58 :: 32 :: (dumps (JVal.jnum (n3 : Int)) ++ [125])))))))))) [(bs "nonce", JVal.jstr s1), (bs "peer_id_hash", JVal.jstr s2)] = parseJObjItems (g + 3) (32 :: (34 :: (bs "traceroutes" ++ 34 :: 58 :: 32 :: (dumps (JVal.jnum (n2 : Int)) ++ 44 :: 32 :: (34 :: (bs "uptime_hours" ++ 34 :: 58 :: 32 :: (dumps (JVal.jnum (n3 : Int)) ++ [125]))))))) [(bs "nonce", JVal.jstr s1), (bs "peer_id_hash", JVal.jstr s2), (bs "timestamp", JVal.jnum (n1 : Int))] :=
    parseJObjItems_cont (g + 3) _ _ _ _ _ (by
      rw [skipWs_space]
      exact skipWs_cons_of 34 _ (by decide)) (by unfold jplain; decide) hv3
  have step4 : parseJObjItems (g + 3) (32 :: (34 :: (bs "traceroutes" ++ 34 :: 58 :: 32 :: (dumps (JVal.jnum (n2 : Int)) ++ 44 :: 32 :: (34 :: (bs "uptime_hours" ++ 34 :: 58 :: 32 :: (dumps (JVal.jnum (n3 : Int)) ++ [125]))))))) [(bs "nonce", JVal.jstr s1), (bs "peer_id_hash", JVal.jstr s2), (bs "timestamp", JVal.jnum (n1 : Int))] = parseJObjItems (g + 2) (32 :: (34 :: (bs "uptime_hours" ++ 34 :: 58 :: 32 :: (dumps (JVal.jnum (n3 : Int)) ++ [125])))) [(bs "nonce", JVal.jstr s1), (bs "peer_id_hash", JVal.jstr s2), (bs "timestamp", JVal.jnum (n1 : Int)), (bs "traceroutes", JVal.jnum (n2 : Int))] :=
    parseJObjItems_cont (g + 2) _ _ _ _ _ (by
      rw [skipWs_space]
      exact skipWs_cons_of 34 _ (by decide)) (by unfold jplain; decide) hv4
  have step5 : parseJObjItems (g + 2) (32 :: (34 :: (bs "uptime_hours" ++ 34 :: 58 :: 32 :: (dumps (JVal.jnum (n3 : Int)) ++ [125])))) [(bs "nonce", JVal.jstr s1), (bs "peer_id_hash", JVal.jstr s2), (bs "timestamp", JVal.jnum (n1 : Int)), (bs "traceroutes", JVal.jnum (n2 : Int))] = some (JVal.jobj [(bs "nonce", JVal.jstr s1), (bs "peer_id_hash", JVal.jstr s2), (bs "timestamp", JVal.jnum (n1 : Int)), (bs "traceroutes", JVal.jnum (n2 : Int)), (bs "uptime_hours", JVal.jnum (n3 : Int))], ([] : Bytes)) :=
    parseJObjItems_last (g + 1) _ _ _ _ _ (by
      rw [skipWs_space]
      exact skipWs_cons_of 34 _ (by decide)) (by unfold jplain; decide) hv5
  show parseJVal ((g + 6) + 1) _ = _
  rw [parseJVal, skipWs_cons_of 123 _ (by decide)]
  dsimp only
  rw [if_neg (by decide), if_neg (by decide), if_neg (by decide), if_neg (by decide),
    if_neg (by decide), if_neg (by decide), if_neg (by decide), if_pos rfl]
  rw [skipWs_cons_of 34 _ (by decide)]
  dsimp only
  rw [step1, step2, step3, step4, step5]

/-- `json.loads` inverts `json.dumps` on the payload object. -/
theorem loads_dumps_payload (s1 s2 : Bytes) (n1 n2 n3 : Nat)
    (h1 : jplain s1) (h2 : jplain s2) :
    loads (dumps (JVal.jobj [(bs "nonce", .jstr s1), (bs "peer_id_hash", .jstr s2),
      (bs "timestamp", .jnum (n1 : Int)), (bs "traceroutes", .jnum (n2 : Int)),
      (bs "uptime_hours", .jnum (n3 : Int))])) =
      some (JVal.jobj [(bs "nonce", .jstr s1), (bs "peer_id_hash", .jstr s2),
      (bs "timestamp", .jnum (n1 : Int)), (bs "traceroutes", .jnum (n2 : Int)),
      (bs "uptime_hours", .jnum (n3 : Int))]) := by
  have hlen : 6 ≤ (dumps (JVal.jobj [(bs "nonce", .jstr s1), (bs "peer_id_hash", .jstr s2),
      (bs "timestamp", .jnum (n1 : Int)), (bs "traceroutes", .jnum (n2 : Int)),
      (bs "uptime_hours", .jnum (n3 : Int))])).length := by
    rw [dumps_payload]
    simp
    omega
  rw [loads]
  rw [show (dumps (JVal.jobj [(bs "nonce", .jstr s1), (bs "peer_id_hash", .jstr s2),
      (bs "timestamp", .jnum (n1 : Int)), (bs "traceroutes", .jnum (n2 : Int)),
      (bs "uptime_hours", .jnum (n3 : Int))])).length + 1 =
      ((dumps (JVal.jobj [(bs "nonce", .jstr s1), (bs "peer_id_hash", .jstr s2),
      (bs "timestamp", .jnum (n1 : Int)), (bs "traceroutes", .jnum (n2 : Int)),
      (bs "uptime_hours", .jnum (n3 : Int))])).length - 6) + 7 by omega]
  rw [parseJVal_payload _ s1 s2 n1 n2 n3 h1 h2]
  dsimp only
  rw [if_pos (show skipWs ([] : Bytes) = [] from rfl)]

/-- A pipe-free byte string has no split point. -/
theorem rsplitPipe_none (b : Bytes) (h : 124 ∉ b) : rsplitPipe b = none := by
  induction b with
  | nil => rfl
  | cons c t ih =>
    simp only [List.mem_cons] at h
    push_neg at h
    rw [rsplitPipe, ih h.2, if_neg (by exact fun hc => h.1 hc.symm)]

/-- `rsplit("|", 1)` splits at the last pipe. -/
theorem rsplitPipe_last (a b : Bytes) (h : 124 ∉ b) :
    rsplitPipe (a ++ 124 :: b) = some (a, b) := by
  induction a with
  | nil =>
    rw [List.nil_append, rsplitPipe, rsplitPipe_none b h, if_pos rfl]
  | cons c t ih =>
    rw [List.cons_append, rsplitPipe, ih]

/-- Hex digits are plain JSON-string characters. -/
theorem hexDigit_jplain (s : Bytes) (h : ∀ c ∈ s, hexDigit c) : jplain s := by
  intro c hc
  rcases h c hc with h1 | h1 <;> refine ⟨by omega, by omega, by omega⟩

/-- Hex digits are not pipes. -/
theorem hexDigit_no_pipe (s : Bytes) (h : ∀ c ∈ s, hexDigit c) : 124 ∉ s := by
  intro hm
  rcases h 124 hm with h1 | h1 <;> omega

/-- The timestamp lookup in the parsed payload record. -/
theorem assocGet_timestamp (Hhex : Bytes → Bytes) (peerId nonce : Bytes)
    (trc ups tgen : Nat) :
    assocGet (bs "timestamp") [(bs "nonce", .jstr nonce),
        (bs "peer_id_hash", .jstr ((Hhex peerId).take 16)),
        (bs "timestamp", .jnum (tgen : Int)), (bs "traceroutes", .jnum (trc : Int)),
        (bs "uptime_hours", .jnum ((ups / 3600 : Nat) : Int))] = some (.jnum (tgen : Int)) := by
  simp +decide [assocGet]

/-- The traceroutes lookup in the parsed payload record. -/
theorem assocGet_traceroutes (Hhex : Bytes → Bytes) (peerId nonce : Bytes)
    (trc ups tgen : Nat) :
    assocGet (bs "traceroutes") [(bs "nonce", .jstr nonce),
        (bs "peer_id_hash", .jstr ((Hhex peerId).take 16)),
        (bs "timestamp", .jnum (tgen : Int)), (bs "traceroutes", .jnum (trc : Int)),
        (bs "uptime_hours", .jnum ((ups / 3600 : Nat) : Int))] = some (.jnum (trc : Int)) := by
  simp +decide [assocGet]

/-- What `verify` returns on `generate`'s output, for any verification
time. -/
theorem verify_generate (Hhex : Bytes → Bytes) (peerId nonce : Bytes)
    (trc ups tgen : Nat) (now : Int)
    (hh : ∀ s : Bytes, ∀ c ∈ Hhex s, hexDigit c)
    (hn : ∀ c ∈ nonce, hexDigit c) :
    verify Hhex now (generate Hhex peerId trc ups tgen nonce) =
      if now - (tgen : Int) > 86400 then .ok (false, none)
      else .ok (true, some [(bs "nonce", .jstr nonce),
        (bs "peer_id_hash", .jstr ((Hhex peerId).take 16)),
        (bs "timestamp", .jnum (tgen : Int)), (bs "traceroutes", .jnum (trc : Int)),
        (bs "uptime_hours", .jnum ((ups / 3600 : Nat) : Int))]) := by
  have hg : generate Hhex peerId trc ups tgen nonce =
      dumps (generateProofPayload Hhex peerId trc ups tgen nonce) ++
        124 :: (Hhex (dumps (generateProofPayload Hhex peerId trc ups tgen nonce))).take 32 :=
    rfl
  have hpipe : 124 ∉ (Hhex (dumps (generateProofPayload Hhex peerId trc ups tgen nonce))).take 32 := by
    intro hm
    exact hexDigit_no_pipe _ (hh _) (List.take_subset 32 _ hm)
  rw [hg, verify, rsplitPipe_last _ _ hpipe]
  dsimp only
  rw [if_neg (fun hne => hne rfl)]
  have hobj : generateProofPayload Hhex peerId trc ups tgen nonce =
      JVal.jobj [(bs "nonce", .jstr nonce),
        (bs "peer_id_hash", .jstr ((Hhex peerId).take 16)),
        (bs "timestamp", .jnum (tgen : Int)), (bs "traceroutes", .jnum (trc : Int)),
        (bs "uptime_hours", .jnum ((ups / 3600 : Nat) : Int))] := rfl
  rw [hobj, loads_dumps_payload nonce ((Hhex peerId).take 16) tgen trc (ups / 3600)
    (hexDigit_jplain nonce hn)
    (hexDigit_jplain _ (fun c hc => hh peerId c (List.take_subset 16 _ hc)))]
  dsimp only
  rw [assocGet_timestamp Hhex peerId nonce trc ups tgen]
  dsimp only [Option.getD]

/-- Any byte string containing a pipe splits at its last pipe. -/
theorem last_pipe_decomp (l : Bytes) (h : 124 ∈ l) :
    ∃ u w, l = u ++ 124 :: w ∧ 124 ∉ w := by
  induction l with
  | nil => cases h
  | cons c t ih =>
    by_cases hp : 124 ∈ t
    · obtain ⟨u, w, rfl, hw⟩ := ih hp
      exact ⟨c :: u, w, rfl, hw⟩
    · have hc : c = 124 := by
        rcases List.mem_cons.mp h with h1 | h1
        · exact h1.symm
        · exact absurd h1 hp
      subst hc
      exact ⟨[], t, rfl, hp⟩

/-- A 32-byte signature that is not the expected digest never verifies,
whatever bytes it holds. -/
theorem verify_wrong_sig (Hhex : Bytes → Bytes) (now : Int) (pfx sig2 : Bytes)
    (hlen : ∀ s : Bytes, (Hhex s).length = 64)
    (hslen : sig2.length = 32) (hs : sig2 ≠ (Hhex pfx).take 32) :
    verify Hhex now (pfx ++ 124 :: sig2) = .ok (false, none) := by
  by_cases hp : 124 ∈ sig2
  · obtain ⟨u, w, rfl, hw⟩ := last_pipe_decomp sig2 hp
    rw [show pfx ++ 124 :: (u ++ 124 :: w) = (pfx ++ 124 :: u) ++ 124 :: w by simp]
    rw [verify, rsplitPipe_last _ _ hw]
    dsimp only
    rw [if_pos (by
      intro heq
      have hwl : w.length = ((Hhex (pfx ++ 124 :: u)).take 32).length :=
        congrArg List.length heq
      rw [List.length_take, hlen] at hwl
      simp only [List.length_append, List.length_cons] at hslen
      omega)]
  · rw [verify, rsplitPipe_last _ _ hp]
    dsimp only
    rw [if_pos hs]


/-- A freshly generated proof passes `is_contributing` at any threshold up
to its traceroute counter. -/
theorem isContributing_generate (Hhex : Bytes → Bytes) (peerId nonce : Bytes)
    (trc ups tgen : Nat) (minT : Int)
    (hh : ∀ s : Bytes, ∀ c ∈ Hhex s, hexDigit c)
    (hn : ∀ c ∈ nonce, hexDigit c) (hmin : minT ≤ (trc : Int)) :
    isContributing Hhex tgen (generate Hhex peerId trc ups tgen nonce) minT =
      .ok true := by
  rw [isContributing, verify_generate Hhex peerId nonce trc ups tgen tgen hh hn,
    if_neg (by omega)]
  dsimp only
  rw [if_neg (by simp)]
  rw [assocGet_traceroutes Hhex peerId nonce trc ups tgen]
  dsimp only [Option.getD]
  rw [decide_eq_true (show (trc : Int) ≥ minT from hmin)]

/-- C5: for every subject and counters (and any hexdigest-shaped hash),
`verify(generate(...))` is valid immediately after generation and returns
the five-field record; replacing the 32-byte signature by any other 32
bytes always fails verification; and a proof whose issue timestamp is more
than 24 hours before the verification time always fails. -/
theorem verify_generate_spec (Hhex : Bytes → Bytes) (peerId nonce : Bytes)
    (trc ups tgen : Nat) (now : Int)
    (hh : ∀ s : Bytes, ∀ c ∈ Hhex s, hexDigit c)
    (hlen : ∀ s : Bytes, (Hhex s).length = 64)
    (hn : ∀ c ∈ nonce, hexDigit c) :
    verify Hhex tgen (generate Hhex peerId trc ups tgen nonce) =
      .ok (true, some [(bs "nonce", .jstr nonce),
        (bs "peer_id_hash", .jstr ((Hhex peerId).take 16)),
        (bs "timestamp", .jnum (tgen : Int)), (bs "traceroutes", .jnum (trc : Int)),
        (bs "uptime_hours", .jnum ((ups / 3600 : Nat) : Int))]) ∧
    (∀ sig2 : Bytes, sig2.length = 32 →
      sig2 ≠ (Hhex (dumps (generateProofPayload Hhex peerId trc ups tgen nonce))).take 32 →
      verify Hhex now (dumps (generateProofPayload Hhex peerId trc ups tgen nonce)
        ++ 124 :: sig2) = .ok (false, none)) ∧
    (now - (tgen : Int) > 86400 →
      verify Hhex now (generate Hhex peerId trc ups tgen nonce) = .ok (false, none)) := by
  refine ⟨?_, ?_, ?_⟩
  · rw [verify_generate Hhex peerId nonce trc ups tgen tgen hh hn, if_neg (by omega)]
  · intro sig2 hsl hsne
    exact verify_wrong_sig Hhex now _ sig2 hlen hsl hsne
  · intro hold
    rw [verify_generate Hhex peerId nonce trc ups tgen now hh hn, if_pos hold]

theorem verify_generate_spec_witness :
    (∀ s : Bytes, ∀ c ∈ hexA s, hexDigit c) ∧
    (∀ s : Bytes, (hexA s).length = 64) ∧
    (∀ c ∈ [48], hexDigit c) ∧
    (verify hexA 0 (generate hexA [] 5 7200 0 [48]) =
      .ok (true, some [(bs "nonce", .jstr [48]),
        (bs "peer_id_hash", .jstr ((hexA []).take 16)),
        (bs "timestamp", .jnum (0 : Int)), (bs "traceroutes", .jnum (5 : Int)),
        (bs "uptime_hours", .jnum ((7200 / 3600 : Nat) : Int))]) ∧
    (∀ sig2 : Bytes, sig2.length = 32 →
      sig2 ≠ (hexA (dumps (generateProofPayload hexA [] 5 7200 0 [48]))).take 32 →
      verify hexA 90000 (dumps (generateProofPayload hexA [] 5 7200 0 [48])
        ++ 124 :: sig2) = .ok (false, none)) ∧
    ((90000 : Int) - (0 : Nat) > 86400 →
      verify hexA 90000 (generate hexA [] 5 7200 0 [48]) = .ok (false, none))) := by
  have hh : ∀ s : Bytes, ∀ c ∈ hexA s, hexDigit c := by
    intro s c hc
    rw [hexA] at hc
    rw [List.eq_of_mem_replicate hc]
    exact Or.inr ⟨by omega, by omega⟩
  have hlen : ∀ s : Bytes, (hexA s).length = 64 := by
    intro s
    rw [hexA]
    simp
  have hn : ∀ c ∈ [48], hexDigit c := by
    intro c hc
    simp only [List.mem_singleton] at hc
    subst hc
    exact Or.inl ⟨by omega, by omega⟩
  exact ⟨hh, hlen, hn, verify_generate_spec hexA [] [48] 5 7200 0 90000 hh hlen hn⟩

/-- C4: `verify` does not return a result for every input: a proof whose
payload is valid JSON but not an object — `"null|" followed by the correct
digest` — escapes with `AttributeError` from `proof_data.get`, instead of
being treated as not contributing. -/
theorem verify_attributeError (Hhex : Bytes → Bytes) (now : Int)
    (h : 124 ∉ (Hhex (bs "null")).take 32) :
    verify Hhex now (bs "null" ++ 124 :: (Hhex (bs "null")).take 32) =
      .error PyExc.attributeError := by
  rw [verify, rsplitPipe_last _ _ h]
  dsimp only
  rw [if_neg (fun hne => hne rfl)]
  rw [show loads (bs "null") = some JVal.jnull from rfl]

theorem verify_attributeError_witness :
    124 ∉ (hexA (bs "null")).take 32 ∧
    verify hexA 0 (bs "null" ++ 124 :: (hexA (bs "null")).take 32) =
      .error PyExc.attributeError := by
  have h : 124 ∉ (hexA (bs "null")).take 32 := by
    rw [hexA]
    decide
  exact ⟨h, verify_attributeError hexA 0 h⟩

/-- C3 counterexample: the signature is an unkeyed digest, so a party with
no key at all assembles, for an arbitrarily chosen traceroute counter (999),
a proof string that `verify` accepts as valid and `is_contributing`
endorses: the claimed unforgeability fails. -/
theorem contribution_forgery :
    verify hexA 0 (bs "\x7b\"nonce\": \"00\", \"peer_id_hash\": \"aa\", \"timestamp\": 0, \"traceroutes\": 999, \"uptime_hours\": 0\x7d" ++ 124 :: (hexA (bs "\x7b\"nonce\": \"00\", \"peer_id_hash\": \"aa\", \"timestamp\": 0, \"traceroutes\": 999, \"uptime_hours\": 0\x7d")).take 32) =
      .ok (true, some [(bs "nonce", .jstr (bs "00")), (bs "peer_id_hash", .jstr (bs "aa")),
      (bs "timestamp", .jnum 0), (bs "traceroutes", .jnum 999),
      (bs "uptime_hours", .jnum 0)]) ∧
    isContributing hexA 0 (bs "\x7b\"nonce\": \"00\", \"peer_id_hash\": \"aa\", \"timestamp\": 0, \"traceroutes\": 999, \"uptime_hours\": 0\x7d" ++ 124 :: (hexA (bs "\x7b\"nonce\": \"00\", \"peer_id_hash\": \"aa\", \"timestamp\": 0, \"traceroutes\": 999, \"uptime_hours\": 0\x7d")).take 32) 1 =
      .ok true := by
  constructor
  · rfl
  · rfl

/-- C3 (amended): the proof's signature is the unkeyed truncated SHA-256 of
the canonical serialization, and verification recomputes that public
digest: no key exists, so for every hexdigest-shaped hash, any party
knowing only the format constructs — for arbitrarily chosen counters — an
accepted proof, by re-running the public generation procedure. -/
theorem contribution_unkeyed_forgeable (Hhex : Bytes → Bytes)
    (peerId nonce : Bytes) (trc ups tgen : Nat) (minT : Int)
    (hh : ∀ s : Bytes, ∀ c ∈ Hhex s, hexDigit c)
    (hn : ∀ c ∈ nonce, hexDigit c) (hmin : minT ≤ (trc : Int)) :
    verify Hhex tgen (generate Hhex peerId trc ups tgen nonce) =
      .ok (true, some [(bs "nonce", .jstr nonce),
        (bs "peer_id_hash", .jstr ((Hhex peerId).take 16)),
        (bs "timestamp", .jnum (tgen : Int)), (bs "traceroutes", .jnum (trc : Int)),
        (bs "uptime_hours", .jnum ((ups / 3600 : Nat) : Int))]) ∧
    isContributing Hhex tgen (generate Hhex peerId trc ups tgen nonce) minT =
      .ok true := by
  constructor
  · rw [verify_generate Hhex peerId nonce trc ups tgen tgen hh hn, if_neg (by omega)]
  · exact isContributing_generate Hhex peerId nonce trc ups tgen minT hh hn hmin

theorem contribution_unkeyed_forgeable_witness :
    (∀ s : Bytes, ∀ c ∈ hexA s, hexDigit c) ∧
    (∀ c ∈ [97], hexDigit c) ∧
    ((1 : Int) ≤ ((999 : Nat) : Int)) ∧
    (verify hexA 0 (generate hexA [120] 999 0 0 [97]) =
      .ok (true, some [(bs "nonce", .jstr [97]),
        (bs "peer_id_hash", .jstr ((hexA [120]).take 16)),
        (bs "timestamp", .jnum (0 : Int)), (bs "traceroutes", .jnum (999 : Int)),
        (bs "uptime_hours", .jnum ((0 / 3600 : Nat) : Int))]) ∧
    isContributing hexA 0 (generate hexA [120] 999 0 0 [97]) 1 = .ok true) := by
  have hh : ∀ s : Bytes, ∀ c ∈ hexA s, hexDigit c := by
    intro s c hc
    rw [hexA] at hc
    rw [List.eq_of_mem_replicate hc]
    exact Or.inr ⟨by omega, by omega⟩
  have hn : ∀ c ∈ [97], hexDigit c := by
    intro c hc
    simp only [List.mem_singleton] at hc
    subst hc
    exact Or.inr ⟨by omega, by omega⟩
  exact ⟨hh, hn, by omega,
    contribution_unkeyed_forgeable hexA [120] [97] 999 0 0 1 hh hn (by omega)⟩

end HA
